import Mathlib

/-!
# fscache: in-memory store (`memfs.go`) and middleware (`handler.go`)

A shallow embedding of the in-memory `FileSystem` of the `fscache` package and of
its caching middleware, and a verification of their contract.

The Go program works on heap objects reached through pointers: the store's index
maps a key to a `*memFile`, a writer handle is that `*memFile`, and every `Open`
allocates a `*memReader` which points back to the `memFile`.  The embedding makes
the heap explicit: a `State` holds the index, the allocated `memFile` objects and
the allocated `memReader` objects; a pointer is the position of the object in its
list.  Calls that Go aborts with a run-time panic (slice bounds out of range)
return `none`; so does the dereference of an address that was never allocated,
which no Go program can produce.

A Go `error` value is `Option GoError` (`none` is `nil`); a byte slice is a list of
byte values; `time.Now()` is an argument of the calls that read the clock.

The index is the map of the library `cornelk/hashmap`, which grows in a goroutine
of its own: a key set while it grows is missed by lookups until the growth has
ended.  Whether the `Set` of a `Create` falls in such a window is an input of
`Create`, and the end of the window is a step of its own in a sequence of calls.
-/

namespace fscache

/-- A byte, by its numeric value; the program never inspects the value of a byte. -/
abbrev Byte := Nat

/-- An instant (`time.Time`); `0` stands for the zero value of `time.Time`. -/
abbrev Time := Nat

/-- Go `error` values that the store returns: `io.EOF` and `errors.New(text)`. -/
inductive GoError where
  | EOF
  | New (text : String)
deriving DecidableEq

/-- The object `memReader`: a pointer to a `memFile` and the running offset `n`. -/
structure memReader where
  memFile : Nat
  n : Int
deriving DecidableEq

/-- The object `memFile` (the lock `mu` guards `r` and has no sequential content):
`r` is the content of the `bytes.Buffer`, which is only ever appended to;
`memReader` is the embedded cursor. -/
structure memFile where
  name : String
  r : List Byte
  memReader : fscache.memReader
  rt : Time
  wt : Time
deriving DecidableEq

/-- The index `hashmap.HashMap` (the library `cornelk/hashmap`) from string keys
to `*memFile`.  The library keeps its items in a list and reaches them through an
index that it grows in a goroutine that `Set` starts; an item set while that
goroutine runs may show up in lookups only when the goroutine has finished.
`entries` is the list of items, at most one per key; `unindexed` holds the keys
of the items that are in the list but that lookups do not reach yet. -/
structure HashMap where
  entries : List (String × Nat)
  unindexed : List String
deriving DecidableEq

/-- The zero value `&hashmap.HashMap{}`. -/
def HashMap.empty : HashMap := ⟨[], []⟩

/-- Look up `key` (`GetStringKey`): an item that the index does not reach yet is
not found. -/
def HashMap.GetStringKey (m : HashMap) (key : String) : Option Nat :=
  if key ∈ m.unindexed then none
  else (m.entries.find? (fun e => decide (e.1 = key))).map (fun e => e.2)

/-- Remove `key` (`Del`). -/
def HashMap.Del (m : HashMap) (key : String) : HashMap :=
  ⟨m.entries.filter (fun e => decide (e.1 ≠ key)),
   m.unindexed.filter (fun k => decide (k ≠ key))⟩

/-- Insert or overwrite `key` (`Set`).  Whether the call falls in a resize of the
index is decided by the library's goroutine, not by the caller: it is the input
`inResize`, and when it is true the item is in the list but lookups do not reach
it yet. -/
def HashMap.Set (m : HashMap) (key : String) (value : Nat) (inResize : Bool) : HashMap :=
  ⟨(key, value) :: (m.Del key).entries,
   if inResize then key :: (m.Del key).unindexed else (m.Del key).unindexed⟩

/-- The end of a resize of the index, an event of the library's goroutine: from
then on lookups reach every item of the list. -/
def HashMap.resized (m : HashMap) : HashMap := ⟨m.entries, []⟩

/-- The store `memFS` together with the heap it works on: `files` is the field
`memFS.files`; `memFiles` and `memReaders` are the allocated objects, addressed by
position. -/
structure State where
  files : HashMap
  memFiles : List memFile
  memReaders : List memReader
deriving DecidableEq

/-- A `stream.File` interface value as the store hands it out: a `*memFile`
(from `Create`) or a `*memReader` (from `Open`). -/
inductive File where
  | memFile (f : Nat)
  | memReader (r : Nat)
deriving DecidableEq

/-- What a read call hands back: the count `n`, the error, and the caller's
buffer `p` after the call. -/
structure ReadResult where
  n : Nat
  err : Option GoError
  p : List Byte
deriving DecidableEq

/-- The store made by `NewMemFs`, on an empty heap. -/
def NewMemFs : State :=
  { files := HashMap.empty, memFiles := [], memReaders := [] }

/-- The built-in `copy(dst, src)`: the count and `dst` afterwards. -/
def copy (dst src : List Byte) : Nat × List Byte :=
  (min dst.length src.length, src.take (min dst.length src.length) ++ dst.drop (min dst.length src.length))

/-- The slice expression `data[i:]`, which panics unless `0 ≤ i ≤ len(data)`. -/
def sliceFrom (data : List Byte) (i : Int) : Option (List Byte) :=
  if 0 ≤ i ∧ i ≤ (data.length : Int) then some (data.drop i.toNat) else none

/-- The call `bytes.NewReader(s).Read(b)` on a fresh reader (its offset is 0). -/
def bytesReaderRead (s b : List Byte) : ReadResult :=
  if s.length ≤ 0 then { n := 0, err := some GoError.EOF, p := b }
  else { n := (copy b s).1, err := none, p := (copy b s).2 }

/-- The call `bytes.NewReader(s).ReadAt(b, off)`. -/
def bytesReaderReadAt (s b : List Byte) (off : Int) : ReadResult :=
  if off < 0 then
    { n := 0, err := some (GoError.New "bytes.Reader.ReadAt: negative offset"), p := b }
  else if (s.length : Int) ≤ off then { n := 0, err := some GoError.EOF, p := b }
  else
    { n := (copy b (s.drop off.toNat)).1,
      err := if (copy b (s.drop off.toNat)).1 < b.length then some GoError.EOF else none,
      p := (copy b (s.drop off.toNat)).2 }

/-- The method `memFS.file`. -/
def memFS.file (s : State) (name : String) : Option Nat :=
  s.files.GetStringKey name

/-- The method `memFS.setfile`; the pointer it is given is never nil.  `inResize`
is whether the `Set` it makes falls in a resize of the index. -/
def memFS.setfile (s : State) (name : String) (mf : Nat) (inResize : Bool) : State :=
  { s with files := s.files.Set name mf inResize }

/-- The method `memFS.Reload`. -/
def memFS.Reload (s : State) : State × Option GoError :=
  (s, none)

/-- The method `memFS.AccessTimes`. -/
def memFS.AccessTimes (s : State) (name : String) : Option (Time × Time × Option GoError) :=
  match memFS.file s name with
  | some f =>
    match s.memFiles[f]? with
    | some mf => some (mf.rt, mf.wt, none)
    | none => none
  | none => some (0, 0, some (GoError.New "file has not been read"))

/-- The method `memFS.Create`; the new object is allocated at the end of the heap.
`inResize` is whether the `Set` that `setfile` makes falls in a resize of the
index. -/
def memFS.Create (s : State) (key : String) (now : Time) (inResize : Bool) :
    State × Option File × Option GoError :=
  match memFS.file s key with
  | some _ => (s, none, some (GoError.New "file exists"))
  | none =>
    (memFS.setfile
      { s with memFiles := s.memFiles ++
          [{ name := key, r := [], memReader := { memFile := s.memFiles.length, n := 0 },
             rt := 0, wt := now }] }
      key s.memFiles.length inResize,
     some (File.memFile s.memFiles.length), none)

/-- The end of a resize of the index, as an event on the store: not a call, but a
step of the goroutine that the index started. -/
def memFS.resized (s : State) : State :=
  { s with files := s.files.resized }

/-- The method `memFS.Open`. -/
def memFS.Open (s : State) (name : String) (now : Time) :
    Option (State × Option File × Option GoError) :=
  match memFS.file s name with
  | some f =>
    match s.memFiles[f]? with
    | some mf =>
      some ({ s with
                memFiles := s.memFiles.set f { mf with rt := now },
                memReaders := s.memReaders ++ [{ memFile := f, n := 0 }] },
            some (File.memReader s.memReaders.length), none)
    | none => none
  | none => some (s, none, some (GoError.New "file does not exist"))

/-- The method `memFS.Remove`. -/
def memFS.Remove (s : State) (key : String) : State × Option GoError :=
  ({ s with files := s.files.Del key }, none)

/-- The method `memFS.RemoveAll`. -/
def memFS.RemoveAll (s : State) : State × Option GoError :=
  ({ s with files := HashMap.empty }, none)

/-- The method `memFile.Name`, on the object at address `f`. -/
def memFile.Name (s : State) (f : Nat) : Option String :=
  (s.memFiles[f]?).map (fun mf => mf.name)

/-- The method `memFile.Write`, on the object at address `f`: the state, the count
and the error. -/
def memFile.Write (s : State) (f : Nat) (p : List Byte) : Option (State × Nat × Option GoError) :=
  match s.memFiles[f]? with
  | some mf =>
    if p.length > 0 then
      some ({ s with memFiles := s.memFiles.set f { mf with r := mf.r ++ p } }, p.length, none)
    else some (s, p.length, none)
  | none => none

/-- The method `memFile.Bytes`, on the object at address `f`. -/
def memFile.Bytes (s : State) (f : Nat) : Option (List Byte) :=
  (s.memFiles[f]?).map (fun mf => mf.r)

/-- The method `memFile.Close`. -/
def memFile.Close (s : State) : State × Option GoError :=
  (s, none)

/-- The `memReader` object a handle's promoted methods act on: the one embedded in
the `memFile` for a `*memFile`, the allocated one for a `*memReader`. -/
def File.reader (s : State) (h : File) : Option fscache.memReader :=
  match h with
  | File.memFile f => (s.memFiles[f]?).map (fun mf => mf.memReader)
  | File.memReader r => s.memReaders[r]?

/-- The assignment to the field `n` of the `memReader` object of handle `h`. -/
def File.setN (s : State) (h : File) (n : Int) : State :=
  match h with
  | File.memFile f =>
    { s with memFiles := s.memFiles.modify (fun mf => { mf with memReader := { mf.memReader with n := n } }) f }
  | File.memReader r =>
    { s with memReaders := s.memReaders.modify (fun mr => { mr with n := n }) r }

/-- The method `memReader.ReadAt`, on the `memReader` object of handle `h`. -/
def memReader.ReadAt (s : State) (h : File) (p : List Byte) (off : Int) :
    Option (State × ReadResult) :=
  match File.reader s h with
  | some mr =>
    match memFile.Bytes s mr.memFile with
    | some data =>
      if (data.length : Int) < off then some (s, { n := 0, err := some GoError.EOF, p := p })
      else
        match sliceFrom data off with
        | some d => some (s, bytesReaderReadAt d p 0)
        | none => none
    | none => none
  | none => none

/-- The method `memReader.Read`, on the `memReader` object of handle `h`. -/
def memReader.Read (s : State) (h : File) (p : List Byte) : Option (State × ReadResult) :=
  match File.reader s h with
  | some mr =>
    match memFile.Bytes s mr.memFile with
    | some data =>
      match sliceFrom data mr.n with
      | some d => some (File.setN s h (mr.n + ((bytesReaderRead d p).n : Int)), bytesReaderRead d p)
      | none => none
    | none => none
  | none => none

/-- The method `memReader.Close`. -/
def memReader.Close (s : State) : State × Option GoError :=
  (s, none)

/-- The call `h.Write(p)` on a handle: `memFile.Write`, reached directly on a
`*memFile` and through the embedded pointer on a `*memReader`. -/
def File.Write (s : State) (h : File) (p : List Byte) : Option (State × Nat × Option GoError) :=
  match h with
  | File.memFile f => memFile.Write s f p
  | File.memReader r =>
    match s.memReaders[r]? with
    | some mr => memFile.Write s mr.memFile p
    | none => none

/-- The call `h.Read(p)` on a handle: `memReader.Read` in both cases. -/
def File.Read (s : State) (h : File) (p : List Byte) : Option (State × ReadResult) :=
  memReader.Read s h p

/-- The call `h.ReadAt(p, off)` on a handle: `memReader.ReadAt` in both cases. -/
def File.ReadAt (s : State) (h : File) (p : List Byte) (off : Int) : Option (State × ReadResult) :=
  memReader.ReadAt s h p off

/-- The call `h.Close()` on a handle: `memFile.Close` on a `*memFile`,
`memReader.Close` on a `*memReader`. -/
def File.Close (s : State) (h : File) : State × Option GoError :=
  match h with
  | File.memFile _ => memFile.Close s
  | File.memReader _ => memReader.Close s

/-- The position of the cursor of handle `h`: the field `n` of its `memReader`. -/
def File.pos (s : State) (h : File) : Option Int :=
  (File.reader s h).map (fun mr => mr.n)

/-- The address of the entry the cursor of handle `h` is bound to. -/
def File.entry (s : State) (h : File) : Option Nat :=
  (File.reader s h).map (fun mr => mr.memFile)

/-- The committed content of the entry the cursor of handle `h` is bound to. -/
def File.content (s : State) (h : File) : Option (List Byte) :=
  (File.reader s h).bind (fun mr => memFile.Bytes s mr.memFile)

/-- A caller that appends the chunks of a list through handle `h`, one `Write`
per chunk, in order. -/
def writeAll (s : State) (h : File) : List (List Byte) → Option State
  | [] => some s
  | c :: cs =>
    match File.Write s h c with
    | some (s', _, _) => writeAll s' h cs
    | none => none

/-- A caller that reads handle `h` sequentially: one `Read` per buffer of the
list, in order, until a call reports `io.EOF` or the buffers run out.  It returns
the bytes delivered (`p[:n]` of every call, concatenated) and whether `io.EOF`
was reported. -/
def readUntilEOF (s : State) (h : File) : List (List Byte) → Option (State × List Byte × Bool)
  | [] => some (s, [], false)
  | b :: bufs =>
    match File.Read s h b with
    | some (s', res) =>
      if res.err = some GoError.EOF then some (s', res.p.take res.n, true)
      else
        match readUntilEOF s' h bufs with
        | some (s'', out, done) => some (s'', res.p.take res.n ++ out, done)
        | none => none
    | none => none

/-- One call of the store's interface or of a handle's interface, or the end of
a resize of the index (`Resized`), which can come between any two calls. -/
inductive Call where
  | Create (key : String) (now : Time) (inResize : Bool)
  | Open (name : String) (now : Time)
  | Remove (key : String)
  | RemoveAll
  | Reload
  | AccessTimes (name : String)
  | Write (h : File) (p : List Byte)
  | Read (h : File) (p : List Byte)
  | ReadAt (h : File) (p : List Byte) (off : Int)
  | Close (h : File)
  | Resized
deriving DecidableEq

/-- What a call returns to its caller; `event` stands for the step `Resized`,
which has no caller. -/
inductive Reply where
  | event
  | file (h : Option File) (err : Option GoError)
  | error (err : Option GoError)
  | times (rt wt : Time) (err : Option GoError)
  | count (n : Nat) (err : Option GoError)
  | read (res : ReadResult)
deriving DecidableEq

/-- Calls made on a handle, as opposed to calls made on the store. -/
def Call.onHandle : Call → Bool
  | Call.Write _ _ => true
  | Call.Read _ _ => true
  | Call.ReadAt _ _ _ => true
  | Call.Close _ => true
  | _ => false

/-- Run one call: the state after it and its reply, or `none` if it panics. -/
def Call.exec (s : State) : Call → Option (State × Reply)
  | Call.Create key now inResize =>
    some ((memFS.Create s key now inResize).1,
      Reply.file (memFS.Create s key now inResize).2.1 (memFS.Create s key now inResize).2.2)
  | Call.Open name now =>
    (memFS.Open s name now).map (fun x => (x.1, Reply.file x.2.1 x.2.2))
  | Call.Remove key => some ((memFS.Remove s key).1, Reply.error (memFS.Remove s key).2)
  | Call.RemoveAll => some ((memFS.RemoveAll s).1, Reply.error (memFS.RemoveAll s).2)
  | Call.Reload => some ((memFS.Reload s).1, Reply.error (memFS.Reload s).2)
  | Call.AccessTimes name =>
    (memFS.AccessTimes s name).map (fun x => (s, Reply.times x.1 x.2.1 x.2.2))
  | Call.Write h p => (File.Write s h p).map (fun x => (x.1, Reply.count x.2.1 x.2.2))
  | Call.Read h p => (File.Read s h p).map (fun x => (x.1, Reply.read x.2))
  | Call.ReadAt h p off => (File.ReadAt s h p off).map (fun x => (x.1, Reply.read x.2))
  | Call.Close h => some ((File.Close s h).1, Reply.error (File.Close s h).2)
  | Call.Resized => some (memFS.resized s, Reply.event)

/-- Run a sequence of calls in order: the final state and the replies, or `none`
if one of them panics. -/
def run (s : State) : List Call → Option (State × List Reply)
  | [] => some (s, [])
  | c :: cs =>
    match Call.exec s c with
    | some (s', r) =>
      match run s' cs with
      | some (s'', rs) => some (s'', r :: rs)
      | none => none
    | none => none

/-- Well-formed heap: every address in the index and in a cursor is allocated, and
the cursor embedded in a `memFile` points to that `memFile`. -/
def State.WF (s : State) : Prop :=
  (∀ e ∈ s.files.entries, e.2 < s.memFiles.length) ∧
  (∀ mr ∈ s.memReaders, mr.memFile < s.memFiles.length) ∧
  (∀ f, f < s.memFiles.length → (s.memFiles[f]?).map (fun mf => mf.memReader.memFile) = some f)

instance (s : State) : Decidable s.WF := by
  unfold State.WF
  infer_instance

/-- The entry that `h.Write` appends to: the `memFile` itself for a `*memFile`,
the `memFile` the cursor points to for a `*memReader`. -/
def File.target (s : State) (h : File) : Option Nat :=
  match h with
  | File.memFile f => some f
  | File.memReader r => (s.memReaders[r]?).map (fun mr => mr.memFile)

/-- The bytes that the call `c`, made in state `s`, appends to the entry at
address `f`: the argument of a `Write` through a handle of that entry, nothing
for any other call. -/
def Call.appendTo (s : State) (f : Nat) : Call → List Byte
  | Call.Write h p => if File.target s h = some f then p else []
  | _ => []

/-- The appends made to the entry at address `f` by a sequence of calls started
in state `s`, concatenated in call order. -/
def appended (s : State) (f : Nat) : List Call → List Byte
  | [] => []
  | c :: cs =>
    match Call.exec s c with
    | some (s', _) => Call.appendTo s f c ++ appended s' f cs
    | none => []

/-- Cursor bound: every cursor (allocated by `Open` or embedded in a `memFile`)
points to an allocated entry and its position `n` satisfies
`0 ≤ n ≤ len(content)`. -/
def State.Bounded (s : State) : Prop :=
  ∀ (h : File) (mr : fscache.memReader), File.reader s h = some mr →
    ∃ c, memFile.Bytes s mr.memFile = some c ∧ 0 ≤ mr.n ∧ mr.n ≤ (c.length : Int)

/-- The time that the call `c`, made in state `s`, writes in the last-read field
`rt` of the entry at address `f`: the clock of an `Open` whose lookup finds that
entry; no other call writes that field. -/
def Call.readsAt (s : State) (f : Nat) : Call → Option Time
  | Call.Open name now => if memFS.file s name = some f then some now else none
  | _ => none

/-- The last-read time of the entry at address `f` after a sequence of calls
started in state `s`, where it was `rt`: the clock of the latest `Open` that
found the entry, and `rt` if there was none. -/
def lastRead (s : State) (f : Nat) (rt : Time) : List Call → Time
  | [] => rt
  | c :: cs =>
    match Call.exec s c with
    | some (s', _) => lastRead s' f ((Call.readsAt s f c).getD rt) cs
    | none => rt

/-! ## The middleware (`handler.go`)

The middleware calls objects it is given: the key coordinator, the wrapped
handler, the response writer of the request and the handles that `Get` returns.
An object is the record of its methods, and a method is a function on a world of
type `σ` that holds whatever state those objects have. -/

/-- An `io.Writer` value: its method `Write`, which returns the world afterwards,
the count and the error. -/
structure Writer (σ : Type) where
  Write : List Byte → σ → σ × Nat × Option GoError

/-- An `io.WriteCloser` value, the write handle that `Get` returns. -/
structure WriteCloser (σ : Type) extends Writer σ where
  Close : σ → σ × Option GoError

/-- An `io.ReadCloser` value, the read handle that `Get` returns. -/
structure ReadCloser (σ : Type) where
  Read : List Byte → σ → σ × ReadResult
  Close : σ → σ × Option GoError

/-- An `http.ResponseWriter` value; `η` is the type of the header map
`http.Header` that `Header()` returns. -/
structure ResponseWriter (σ η : Type) where
  Header : σ → σ × η
  Write : List Byte → σ → σ × Nat × Option GoError
  WriteHeader : Int → σ → σ

/-- The request `*http.Request`: `URL` is `req.URL.String()`. -/
structure Request where
  Method : String
  URL : String
  Body : List Byte
deriving DecidableEq

/-- An `http.Handler` value: its method `ServeHTTP`. -/
structure HttpHandler (σ η : Type) where
  ServeHTTP : ResponseWriter σ η → Request → σ → σ

/-- Modelled from the spec: the key coordinator `Cache`, whose declaration is not
among the source files, with its one operation
`Get(key) → (readHandle, writeHandle-or-absent, error)`; an absent handle is a
nil interface value. -/
structure Cache (σ : Type) where
  Get : String → σ → σ × Option (ReadCloser σ) × Option (WriteCloser σ) × Option GoError

/-- The type `ResWrapper`, with its two embedded fields. -/
structure ResWrapper (σ η : Type) where
  ResponseWriter : fscache.ResponseWriter σ η
  Writer : fscache.Writer σ

/-- The method `ResWrapper.Write`. -/
def ResWrapper.Write {σ η : Type} (r : ResWrapper σ η) (p : List Byte) :
    σ → σ × Nat × Option GoError :=
  r.Writer.Write p

/-- The value `&ResWrapper{...}` used as an `http.ResponseWriter`: `Write` is the
method of `ResWrapper` itself, `Header` and `WriteHeader` are promoted from the
embedded `http.ResponseWriter` (the embedded `io.Writer` has neither). -/
def ResWrapper.toResponseWriter {σ η : Type} (r : ResWrapper σ η) : fscache.ResponseWriter σ η :=
  { Header := r.ResponseWriter.Header,
    Write := ResWrapper.Write r,
    WriteHeader := r.ResponseWriter.WriteHeader }

/-- The closure that `Handler(c, h)` returns, run on the response writer `rw` and
the request `req`; `ioCopy dst src` is the library call `io.Copy(dst, src)`.  The
result is the world after the calls the closure makes itself (the deferred
`r.Close()` last) and the goroutines it has started, each as the function on the
world it will run; how a started goroutine interleaves with the rest of the
closure is not part of the model.  `none` is the panic of `defer r.Close()` on a
nil read handle. -/
def Handler {σ η : Type} (c : Cache σ) (h : HttpHandler σ η)
    (ioCopy : Writer σ → ReadCloser σ → σ → σ)
    (rw : ResponseWriter σ η) (req : Request) (s : σ) : Option (σ × List (σ → σ)) :=
  match c.Get req.URL s with
  | (s1, _, _, some _) => some (h.ServeHTTP rw req s1, [])
  | (_, none, _, none) => none
  | (s1, some r, some w, none) =>
    some ((r.Close (ioCopy ⟨rw.Write⟩ r s1)).1,
          [fun s2 =>
            (w.Close (h.ServeHTTP (ResWrapper.toResponseWriter ⟨rw, w.toWriter⟩) req s2)).1])
  | (s1, some r, none, none) => some ((r.Close (ioCopy ⟨rw.Write⟩ r s1)).1, [])

/-- A call that a handler makes on the `http.ResponseWriter` it is given. -/
inductive RWCall where
  | Header
  | Write (p : List Byte)
  | WriteHeader (code : Int)
deriving DecidableEq

/-- Whether a call is a body write. -/
def RWCall.isWrite : RWCall → Bool
  | RWCall.Write _ => true
  | _ => false

/-- The body bytes of a sequence of calls: the arguments of its `Write` calls,
concatenated in call order. -/
def RWCall.body : List RWCall → List Byte
  | [] => []
  | RWCall.Write p :: cs => p ++ RWCall.body cs
  | RWCall.Header :: cs => RWCall.body cs
  | RWCall.WriteHeader _ :: cs => RWCall.body cs

/-- One call made on a response writer. -/
def ResponseWriter.call {σ η : Type} (rw : ResponseWriter σ η) (c : RWCall) (s : σ) : σ :=
  match c with
  | RWCall.Header => (rw.Header s).1
  | RWCall.Write p => (rw.Write p s).1
  | RWCall.WriteHeader code => rw.WriteHeader code s

/-- A sequence of calls made on a response writer, in order. -/
def ResponseWriter.calls {σ η : Type} (rw : ResponseWriter σ η) : List RWCall → σ → σ
  | [], s => s
  | c :: cs, s => ResponseWriter.calls rw cs (ResponseWriter.call rw c s)

/-- A handler that makes the calls `ops` on the response writer it is given, in
order, and does nothing else; whatever a handler does to the writer it is given
is such a sequence. -/
def HttpHandler.ofCalls {σ η : Type} (ops : List RWCall) : HttpHandler σ η :=
  { ServeHTTP := fun rw _ s => ResponseWriter.calls rw ops s }

/-- A world for a request served over the in-memory store: the store, and the
calls that the real response writer of the request has received, in order. -/
structure World where
  fs : State
  received : List RWCall
deriving DecidableEq

/-- The real response writer of a request, as an object that records every call
it receives; the world is `none` after a panic. -/
def realResponseWriter : ResponseWriter (Option World) Unit :=
  { Header := fun s =>
      (s.map (fun x => { x with received := x.received ++ [RWCall.Header] }), ()),
    Write := fun p s =>
      (s.map (fun x => { x with received := x.received ++ [RWCall.Write p] }), p.length, none),
    WriteHeader := fun code s =>
      s.map (fun x => { x with received := x.received ++ [RWCall.WriteHeader code] }) }

/-- A handle of the in-memory store as an `io.WriteCloser` value. -/
def File.toWriteCloser (h : File) : WriteCloser (Option World) :=
  { Write := fun p s =>
      match s with
      | some x =>
        match File.Write x.fs h p with
        | some (fs', n, err) => (some { x with fs := fs' }, n, err)
        | none => (none, 0, none)
      | none => (none, 0, none),
    Close := fun s => (s.map (fun x => { x with fs := (File.Close x.fs h).1 }), none) }

/-- A handle of the in-memory store as an `io.ReadCloser` value. -/
def File.toReadCloser (h : File) : ReadCloser (Option World) :=
  { Read := fun p s =>
      match s with
      | some x =>
        match File.Read x.fs h p with
        | some (fs', res) => (some { x with fs := fs' }, res)
        | none => (none, { n := 0, err := none, p := p })
      | none => (none, { n := 0, err := none, p := p }),
    Close := fun s => (s.map (fun x => { x with fs := (File.Close x.fs h).1 }), none) }

/-- A key coordinator that, whatever the key, returns the handle `r` of the
in-memory store as read handle and the handle `w` as write handle, with no
error: a collaborator for the population path. -/
def World.missCache (r w : File) : Cache (Option World) :=
  { Get := fun _ s => (s, some (File.toReadCloser r), some (File.toWriteCloser w), none) }

/-- What a recording collaborator of the middleware writes in the log. -/
inductive Event where
  | Get (key : String)
  | ServeHTTP (req : Request)
  | Written (p : List Byte)
  | HandleWrite (p : List Byte)
  | HandleRead
  | HandleClose
  | Copy
deriving DecidableEq

/-- A response writer that logs the body writes it receives. -/
def Event.responseWriter : ResponseWriter (List Event) Unit :=
  { Header := fun s => (s, ()),
    Write := fun p s => (s ++ [Event.Written p], p.length, none),
    WriteHeader := fun _ s => s }

/-- A read handle that logs its calls. -/
def Event.readCloser : ReadCloser (List Event) :=
  { Read := fun p s => (s ++ [Event.HandleRead], { n := 0, err := some GoError.EOF, p := p }),
    Close := fun s => (s ++ [Event.HandleClose], none) }

/-- A write handle that logs its calls. -/
def Event.writeCloser : WriteCloser (List Event) :=
  { Write := fun p s => (s ++ [Event.HandleWrite p], p.length, none),
    Close := fun s => (s ++ [Event.HandleClose], none) }

/-- A key coordinator that logs the call and fails. -/
def Event.failingCache : Cache (List Event) :=
  { Get := fun key s => (s ++ [Event.Get key], none, none, some (GoError.New "cache unavailable")) }

/-- A key coordinator that logs the call and returns both handles. -/
def Event.missCache : Cache (List Event) :=
  { Get := fun key s =>
      (s ++ [Event.Get key], some Event.readCloser, some Event.writeCloser, none) }

/-- A handler that logs its invocation and writes "hello". -/
def Event.helloHandler : HttpHandler (List Event) Unit :=
  { ServeHTTP := fun rw req s =>
      (rw.Write [104, 101, 108, 108, 111] (s ++ [Event.ServeHTTP req])).1 }

/-- The call `io.Copy`, logged. -/
def Event.ioCopy (_ : Writer (List Event)) (_ : ReadCloser (List Event)) (s : List Event) :
    List Event :=
  s ++ [Event.Copy]

/-! ## Facts about the index -/

theorem HashMap.GetStringKey_unindexed {m : HashMap} {k : String} (h : k ∈ m.unindexed) :
    m.GetStringKey k = none := by
  simp [HashMap.GetStringKey, h]

theorem HashMap.GetStringKey_indexed {m : HashMap} {k : String} (h : k ∉ m.unindexed) :
    m.GetStringKey k = (m.entries.find? (fun e => decide (e.1 = k))).map (fun e => e.2) := by
  simp [HashMap.GetStringKey, h]

theorem HashMap.find_filter_ne (l : List (String × Nat)) {k k' : String} (h : k' ≠ k) :
    (l.filter (fun e => decide (e.1 ≠ k))).find? (fun e => decide (e.1 = k')) =
      l.find? (fun e => decide (e.1 = k')) := by
  rw [List.find?_filter]
  have hfun : (fun a : String × Nat => decide (decide (a.1 ≠ k) = true ∧ decide (a.1 = k') = true))
      = (fun e : String × Nat => decide (e.1 = k')) := by
    funext e
    by_cases he : e.1 = k'
    · simp [he, h]
    · simp [he]
  simp only [Bool.decide_and, Bool.decide_eq_true] at hfun ⊢
  rw [hfun]

theorem HashMap.find_filter_self (l : List (String × Nat)) (k : String) :
    (l.filter (fun e => decide (e.1 ≠ k))).find? (fun e => decide (e.1 = k)) = none := by
  simp [List.find?_filter]

theorem HashMap.GetStringKey_Del_self (m : HashMap) (k : String) :
    (m.Del k).GetStringKey k = none := by
  unfold HashMap.GetStringKey
  split
  · rfl
  · simp only [HashMap.Del, HashMap.find_filter_self, Option.map_none']

theorem HashMap.GetStringKey_Del_ne (m : HashMap) {k k' : String} (h : k' ≠ k) :
    (m.Del k).GetStringKey k' = m.GetStringKey k' := by
  have hmem : k' ∈ (m.Del k).unindexed ↔ k' ∈ m.unindexed := by
    simp [HashMap.Del, List.mem_filter, h]
  unfold HashMap.GetStringKey
  by_cases hk : k' ∈ m.unindexed
  · rw [if_pos hk, if_pos (hmem.mpr hk)]
  · rw [if_neg hk, if_neg (fun hc => hk (hmem.mp hc))]
    simp only [HashMap.Del, HashMap.find_filter_ne m.entries h]

theorem HashMap.GetStringKey_Set_shown (m : HashMap) (k : String) (v : Nat) :
    (m.Set k v false).GetStringKey k = some v := by
  have hmem : k ∉ (m.Set k v false).unindexed := by
    simp [HashMap.Set, HashMap.Del, List.mem_filter]
  rw [HashMap.GetStringKey_indexed hmem]
  simp [HashMap.Set]

theorem HashMap.GetStringKey_Set_hidden (m : HashMap) (k : String) (v : Nat) :
    (m.Set k v true).GetStringKey k = none := by
  apply HashMap.GetStringKey_unindexed
  simp [HashMap.Set]

theorem HashMap.GetStringKey_Set_some {m : HashMap} {k : String} {v f : Nat} {b : Bool}
    (h : (m.Set k v b).GetStringKey k = some f) : f = v := by
  unfold HashMap.GetStringKey at h
  split at h
  · cases h
  · simpa [HashMap.Set] using h.symm

theorem HashMap.GetStringKey_Set_ne (m : HashMap) {k k' : String} (v : Nat) (b : Bool)
    (h : k' ≠ k) : (m.Set k v b).GetStringKey k' = m.GetStringKey k' := by
  have h2 := HashMap.GetStringKey_Del_ne m h
  have hmem : k' ∈ (m.Set k v b).unindexed ↔ k' ∈ (m.Del k).unindexed := by
    cases b <;> simp [HashMap.Set, h]
  rw [← h2]
  unfold HashMap.GetStringKey
  by_cases hk : k' ∈ (m.Del k).unindexed
  · rw [if_pos hk, if_pos (hmem.mpr hk)]
  · rw [if_neg hk, if_neg (fun hc => hk (hmem.mp hc))]
    simp only [HashMap.Set]
    rw [List.find?_cons_of_neg _ (by simpa using Ne.symm h)]

theorem HashMap.GetStringKey_mem {m : HashMap} {k : String} {f : Nat}
    (h : m.GetStringKey k = some f) : (k, f) ∈ m.entries := by
  unfold HashMap.GetStringKey at h
  split at h
  · cases h
  · simp only [Option.map_eq_some'] at h
    obtain ⟨e, he, rfl⟩ := h
    have h1 := List.find?_some he
    have h2 := List.mem_of_find?_eq_some he
    simp only [decide_eq_true_eq] at h1
    subst h1
    exact h2

theorem HashMap.GetStringKey_of_not_mem {m : HashMap} {k : String}
    (h : ∀ v, (k, v) ∉ m.entries) : m.GetStringKey k = none := by
  cases hk : m.GetStringKey k with
  | none => rfl
  | some f => exact absurd (HashMap.GetStringKey_mem hk) (h f)

theorem HashMap.GetStringKey_resized_of_some {m : HashMap} {k : String} {f : Nat}
    (h : m.GetStringKey k = some f) : m.resized.GetStringKey k = some f := by
  unfold HashMap.GetStringKey at h
  split at h
  · cases h
  · simpa [HashMap.GetStringKey, HashMap.resized] using h

theorem HashMap.GetStringKey_resized_Set (m : HashMap) (k : String) (v : Nat) (b : Bool) :
    (m.Set k v b).resized.GetStringKey k = some v := by
  simp [HashMap.GetStringKey, HashMap.resized, HashMap.Set]

/-! ## Facts about lists used as a heap -/

theorem set_of_getElem?_eq {α : Type} {l : List α} {i : Nat} {a : α}
    (h : l[i]? = some a) : l.set i a = l := by
  apply List.ext_getElem?
  intro j
  by_cases hj : i = j
  · subst hj
    rw [List.getElem?_set]
    simp only [if_true]
    split
    · exact h.symm
    · rename_i hlt
      rw [List.getElem?_eq_none (by omega)]
  · rw [List.getElem?_set_ne hj]

/-! ## Facts about cursors -/

theorem File.setN_files (s : State) (h : File) (n : Int) : (File.setN s h n).files = s.files := by
  cases h <;> rfl

theorem memFile.Bytes_setN (s : State) (h : File) (n : Int) (f : Nat) :
    memFile.Bytes (File.setN s h n) f = memFile.Bytes s f := by
  cases h with
  | memFile g =>
    simp only [memFile.Bytes, File.setN]
    by_cases hg : g = f
    · subst hg
      rw [List.getElem?_modify_eq]
      cases s.memFiles[g]? <;> rfl
    · rw [List.getElem?_modify_ne _ _ hg]
  | memReader r => rfl

theorem File.reader_setN_self (s : State) (h : File) (n : Int) :
    File.reader (File.setN s h n) h = (File.reader s h).map (fun mr => { mr with n := n }) := by
  cases h with
  | memFile g =>
    simp only [File.reader, File.setN]
    rw [List.getElem?_modify_eq]
    cases s.memFiles[g]? <;> rfl
  | memReader r =>
    simp only [File.reader, File.setN]
    rw [List.getElem?_modify_eq]
    cases s.memReaders[r]? <;> rfl

theorem File.reader_setN_ne (s : State) {h h' : File} (n : Int) (hne : h' ≠ h) :
    File.reader (File.setN s h n) h' = File.reader s h' := by
  cases h with
  | memFile g =>
    cases h' with
    | memFile g' =>
      have hg : g ≠ g' := fun e => hne (by rw [e])
      simp only [File.reader, File.setN]
      rw [List.getElem?_modify_ne _ _ hg]
    | memReader r' => rfl
  | memReader r =>
    cases h' with
    | memFile g' => rfl
    | memReader r' =>
      have hr : r ≠ r' := fun e => hne (by rw [e])
      simp only [File.reader, File.setN]
      rw [List.getElem?_modify_ne _ _ hr]

theorem sliceFrom_natCast (data : List Byte) (m : Nat) (h : m ≤ data.length) :
    sliceFrom data (m : Int) = some (data.drop m) := by
  unfold sliceFrom
  rw [if_pos ⟨by omega, by omega⟩]
  simp

theorem File.Read_eq (s : State) (h : File) (p : List Byte) (mr : fscache.memReader)
    (data : List Byte) (m : Nat)
    (hr : File.reader s h = some mr) (hb : memFile.Bytes s mr.memFile = some data)
    (hn : mr.n = (m : Int)) (hm : m ≤ data.length) :
    File.Read s h p =
      some (File.setN s h (((m + (bytesReaderRead (data.drop m) p).n : Nat)) : Int),
            bytesReaderRead (data.drop m) p) := by
  simp only [File.Read, memReader.Read, hr, hb, hn, sliceFrom_natCast data m hm]
  simp

theorem bytesReaderRead_nil (b : List Byte) :
    bytesReaderRead [] b = { n := 0, err := some GoError.EOF, p := b } := by
  simp [bytesReaderRead]

theorem bytesReaderRead_ne_nil (d b : List Byte) (h : d ≠ []) :
    bytesReaderRead d b =
      { n := min b.length d.length, err := none,
        p := d.take (min b.length d.length) ++ b.drop (min b.length d.length) } := by
  have hl : ¬ d.length ≤ 0 := by
    have := List.length_pos.mpr h
    omega
  simp [bytesReaderRead, hl, copy]

/-! ## Facts about the store's calls -/

theorem memFS.Create_of_absent (s : State) (k : String) (now : Time) (b : Bool)
    (h : s.files.GetStringKey k = none) :
    memFS.Create s k now b =
      ({ files := s.files.Set k s.memFiles.length b,
         memFiles := s.memFiles ++
           [{ name := k, r := [], memReader := { memFile := s.memFiles.length, n := 0 },
              rt := 0, wt := now }],
         memReaders := s.memReaders },
       some (File.memFile s.memFiles.length), none) := by
  simp [memFS.Create, memFS.file, h, memFS.setfile]

theorem memFS.Create_of_present (s : State) (k : String) (now : Time) (b : Bool) (f : Nat)
    (h : s.files.GetStringKey k = some f) :
    memFS.Create s k now b = (s, none, some (GoError.New "file exists")) := by
  simp [memFS.Create, memFS.file, h]

theorem memFS.Open_of_present (s : State) (k : String) (now : Time) (f : Nat) (mf : memFile)
    (h : s.files.GetStringKey k = some f) (hf : s.memFiles[f]? = some mf) :
    memFS.Open s k now =
      some ({ files := s.files,
              memFiles := s.memFiles.set f { mf with rt := now },
              memReaders := s.memReaders ++ [{ memFile := f, n := 0 }] },
            some (File.memReader s.memReaders.length), none) := by
  simp [memFS.Open, memFS.file, h, hf]

theorem memFS.Open_of_absent (s : State) (k : String) (now : Time)
    (h : s.files.GetStringKey k = none) :
    memFS.Open s k now = some (s, none, some (GoError.New "file does not exist")) := by
  simp [memFS.Open, memFS.file, h]

theorem memFile.Write_eq (s : State) (f : Nat) (p : List Byte) (mf : memFile)
    (hf : s.memFiles[f]? = some mf) :
    memFile.Write s f p =
      some ({ s with memFiles := s.memFiles.set f { mf with r := mf.r ++ p } }, p.length, none) := by
  unfold memFile.Write
  rw [hf]
  by_cases hp : p.length > 0
  · simp [hp]
  · have hnil : p = [] := List.length_eq_zero.mp (by omega)
    subst hnil
    simp only [List.length_nil, gt_iff_lt, lt_self_iff_false, if_false, List.append_nil]
    rw [set_of_getElem?_eq hf]

theorem writeAll_memFile (cs : List (List Byte)) :
    ∀ (s : State) (f : Nat) (mf : memFile), s.memFiles[f]? = some mf →
      writeAll s (File.memFile f) cs =
        some { s with memFiles := s.memFiles.set f { mf with r := mf.r ++ cs.flatten } } := by
  induction cs with
  | nil =>
    intro s f mf hf
    simp only [writeAll, List.flatten_nil, List.append_nil]
    rw [set_of_getElem?_eq hf]
  | cons c cs ih =>
    intro s f mf hf
    have hlt : f < s.memFiles.length := by
      rcases Nat.lt_or_ge f s.memFiles.length with h | h
      · exact h
      · rw [List.getElem?_eq_none h] at hf
        cases hf
    simp only [writeAll, File.Write, memFile.Write_eq s f c mf hf]
    rw [ih _ f { mf with r := mf.r ++ c } (by simp [List.getElem?_set_self hlt])]
    simp [List.set_set, List.append_assoc]

theorem readUntilEOF_memReader (bufs : List (List Byte)) :
    ∀ (s : State) (q f m : Nat) (mf : memFile),
      s.memReaders[q]? = some { memFile := f, n := (m : Int) } →
      s.memFiles[f]? = some mf → m ≤ mf.r.length →
      (∀ b ∈ bufs, b ≠ []) → mf.r.length - m < bufs.length →
      ∃ s', readUntilEOF s (File.memReader q) bufs = some (s', mf.r.drop m, true) := by
  induction bufs with
  | nil =>
    intro s q f m mf _ _ _ _ hlen
    simp at hlen
  | cons b bufs ih =>
    intro s q f m mf hq hf hm hne hlen
    have hread := File.Read_eq s (File.memReader q) b { memFile := f, n := (m : Int) } mf.r m
      (by simpa [File.reader] using hq) (by simp [memFile.Bytes, hf]) rfl hm
    simp only [readUntilEOF, hread]
    by_cases hd : mf.r.drop m = []
    · rw [hd, bytesReaderRead_nil]
      simp
    · have hb : b ≠ [] := hne b (List.mem_cons_self _ _)
      have hbl : 0 < b.length := List.length_pos.mpr hb
      have hdl : 0 < (mf.r.drop m).length := List.length_pos.mpr hd
      rw [bytesReaderRead_ne_nil _ _ hd]
      simp only [List.length_drop] at hdl
      have hmin : 0 < min b.length (mf.r.length - m) := by
        rw [Nat.lt_min]
        exact ⟨hbl, hdl⟩
      have hq' : (File.setN s (File.memReader q)
          ((m + min b.length (mf.r.drop m).length : Nat) : Int)).memReaders[q]?
            = some { memFile := f, n := ((m + min b.length (mf.r.length - m) : Nat) : Int) } := by
        simp [File.setN, List.getElem?_modify_eq, hq]
      obtain ⟨s', hs'⟩ := ih _ q f (m + min b.length (mf.r.length - m)) mf hq'
        (by simpa [File.setN] using hf) (by omega)
        (fun x hx => hne x (List.mem_cons_of_mem _ hx))
        (by simp only [List.length_cons] at hlen; omega)
      refine ⟨s', ?_⟩
      simp only [List.length_drop] at hs' ⊢
      rw [hs']
      simp only [reduceCtorEq, if_false, Option.some.injEq, Prod.mk.injEq, true_and, and_true]
      rw [List.take_left' (by simp [List.length_take, List.length_drop])]
      rw [← List.drop_drop]
      exact List.take_append_drop _ _

/-! ## What each call leaves alone -/

theorem File.setN_length (s : State) (h : File) (n : Int) :
    (File.setN s h n).memFiles.length = s.memFiles.length := by
  cases h <;> simp [File.setN]

theorem memFS.Open_frame {s s' : State} {k : String} {t : Time} {x : Option File × Option GoError}
    (h : memFS.Open s k t = some (s', x)) :
    s'.files = s.files ∧ s'.memFiles.length = s.memFiles.length := by
  unfold memFS.Open at h
  split at h
  · split at h
    · simp only [Option.some.injEq, Prod.mk.injEq] at h
      obtain ⟨rfl, _⟩ := h
      simp
    · cases h
  · simp only [Option.some.injEq, Prod.mk.injEq] at h
    obtain ⟨rfl, _⟩ := h
    simp

theorem memFile.Write_frame_obj {s s' : State} {f : Nat} {p : List Byte} {x : Nat × Option GoError}
    (h : memFile.Write s f p = some (s', x)) :
    s'.files = s.files ∧ s'.memFiles.length = s.memFiles.length ∧ s'.memReaders = s.memReaders := by
  unfold memFile.Write at h
  split at h
  · split at h
    · simp only [Option.some.injEq, Prod.mk.injEq] at h
      obtain ⟨rfl, _⟩ := h
      simp
    · simp only [Option.some.injEq, Prod.mk.injEq] at h
      obtain ⟨rfl, _⟩ := h
      simp
  · cases h

theorem File.Write_frame {s s' : State} {h : File} {p : List Byte} {x : Nat × Option GoError}
    (hw : File.Write s h p = some (s', x)) :
    s'.files = s.files ∧ s'.memFiles.length = s.memFiles.length ∧ s'.memReaders = s.memReaders := by
  cases h with
  | memFile f => exact memFile.Write_frame_obj hw
  | memReader r =>
    simp only [File.Write] at hw
    split at hw
    · exact memFile.Write_frame_obj hw
    · cases hw

theorem File.Read_frame {s s' : State} {h : File} {p : List Byte} {x : ReadResult}
    (hr : File.Read s h p = some (s', x)) :
    s'.files = s.files ∧ s'.memFiles.length = s.memFiles.length := by
  simp only [File.Read, memReader.Read] at hr
  split at hr
  · split at hr
    · split at hr
      · simp only [Option.some.injEq, Prod.mk.injEq] at hr
        obtain ⟨rfl, _⟩ := hr
        exact ⟨File.setN_files _ _ _, File.setN_length _ _ _⟩
      · cases hr
    · cases hr
  · cases hr

theorem File.ReadAt_frame {s s' : State} {h : File} {p : List Byte} {off : Int} {x : ReadResult}
    (hr : File.ReadAt s h p off = some (s', x)) : s' = s := by
  simp only [File.ReadAt, memReader.ReadAt] at hr
  split at hr
  · split at hr
    · split at hr
      · simp only [Option.some.injEq, Prod.mk.injEq] at hr
        exact hr.1.symm
      · split at hr
        · simp only [Option.some.injEq, Prod.mk.injEq] at hr
          exact hr.1.symm
        · cases hr
    · cases hr
  · cases hr

theorem Call.exec_length {s s' : State} {c : Call} {r : Reply}
    (h : Call.exec s c = some (s', r)) : s.memFiles.length ≤ s'.memFiles.length := by
  cases c with
  | Create key now b =>
    simp only [Call.exec, Option.some.injEq, Prod.mk.injEq] at h
    obtain ⟨rfl, _⟩ := h
    unfold memFS.Create
    split <;> simp [memFS.setfile]
  | Open name now =>
    simp only [Call.exec, Option.map_eq_some'] at h
    obtain ⟨⟨s1, x⟩, ho, he⟩ := h
    simp only [Prod.mk.injEq] at he
    obtain ⟨rfl, _⟩ := he
    exact le_of_eq (memFS.Open_frame ho).2.symm
  | Remove key =>
    simp only [Call.exec, Option.some.injEq, Prod.mk.injEq] at h
    obtain ⟨rfl, _⟩ := h
    simp [memFS.Remove]
  | RemoveAll =>
    simp only [Call.exec, Option.some.injEq, Prod.mk.injEq] at h
    obtain ⟨rfl, _⟩ := h
    simp [memFS.RemoveAll]
  | Reload =>
    simp only [Call.exec, Option.some.injEq, Prod.mk.injEq] at h
    obtain ⟨rfl, _⟩ := h
    simp [memFS.Reload]
  | AccessTimes name =>
    simp only [Call.exec, Option.map_eq_some'] at h
    obtain ⟨x, _, he⟩ := h
    simp only [Prod.mk.injEq] at he
    obtain ⟨rfl, _⟩ := he
    exact le_refl _
  | Write hd p =>
    simp only [Call.exec, Option.map_eq_some'] at h
    obtain ⟨⟨s1, x⟩, ho, he⟩ := h
    simp only [Prod.mk.injEq] at he
    obtain ⟨rfl, _⟩ := he
    exact le_of_eq (File.Write_frame ho).2.1.symm
  | Read hd p =>
    simp only [Call.exec, Option.map_eq_some'] at h
    obtain ⟨⟨s1, x⟩, ho, he⟩ := h
    simp only [Prod.mk.injEq] at he
    obtain ⟨rfl, _⟩ := he
    exact le_of_eq (File.Read_frame ho).2.symm
  | ReadAt hd p off =>
    simp only [Call.exec, Option.map_eq_some'] at h
    obtain ⟨⟨s1, x⟩, ho, he⟩ := h
    simp only [Prod.mk.injEq] at he
    obtain ⟨rfl, _⟩ := he
    rw [File.ReadAt_frame ho]
  | Close hd =>
    simp only [Call.exec, Option.some.injEq, Prod.mk.injEq] at h
    obtain ⟨rfl, _⟩ := h
    cases hd <;> simp [File.Close, memFile.Close, memReader.Close]
  | Resized =>
    simp only [Call.exec, Option.some.injEq, Prod.mk.injEq] at h
    obtain ⟨rfl, _⟩ := h
    simp [memFS.resized]

theorem Call.exec_files_of_ne {s s' : State} {c : Call} {r : Reply}
    (h : Call.exec s c = some (s', r))
    (h1 : ∀ key now b, c ≠ Call.Create key now b) (h2 : ∀ key, c ≠ Call.Remove key)
    (h3 : c ≠ Call.RemoveAll) (h4 : c ≠ Call.Resized) : s'.files = s.files := by
  cases c with
  | Create key now b => exact absurd rfl (h1 key now b)
  | Open name now =>
    simp only [Call.exec, Option.map_eq_some'] at h
    obtain ⟨⟨s1, x⟩, ho, he⟩ := h
    simp only [Prod.mk.injEq] at he
    obtain ⟨rfl, _⟩ := he
    exact (memFS.Open_frame ho).1
  | Remove key => exact absurd rfl (h2 key)
  | RemoveAll => exact absurd rfl h3
  | Reload =>
    simp only [Call.exec, Option.some.injEq, Prod.mk.injEq] at h
    obtain ⟨rfl, _⟩ := h
    rfl
  | AccessTimes name =>
    simp only [Call.exec, Option.map_eq_some'] at h
    obtain ⟨x, _, he⟩ := h
    simp only [Prod.mk.injEq] at he
    obtain ⟨rfl, _⟩ := he
    rfl
  | Write hd p =>
    simp only [Call.exec, Option.map_eq_some'] at h
    obtain ⟨⟨s1, x⟩, ho, he⟩ := h
    simp only [Prod.mk.injEq] at he
    obtain ⟨rfl, _⟩ := he
    exact (File.Write_frame ho).1
  | Read hd p =>
    simp only [Call.exec, Option.map_eq_some'] at h
    obtain ⟨⟨s1, x⟩, ho, he⟩ := h
    simp only [Prod.mk.injEq] at he
    obtain ⟨rfl, _⟩ := he
    exact (File.Read_frame ho).1
  | ReadAt hd p off =>
    simp only [Call.exec, Option.map_eq_some'] at h
    obtain ⟨⟨s1, x⟩, ho, he⟩ := h
    simp only [Prod.mk.injEq] at he
    obtain ⟨rfl, _⟩ := he
    rw [File.ReadAt_frame ho]
  | Close hd =>
    simp only [Call.exec, Option.some.injEq, Prod.mk.injEq] at h
    obtain ⟨rfl, _⟩ := h
    cases hd <;> rfl
  | Resized => exact absurd rfl h4

/-! ## The index along a sequence of calls -/

theorem memFS.Create_lookup_ne (s : State) {key k : String} (now : Time) (b : Bool)
    (hne : k ≠ key) :
    (memFS.Create s key now b).1.files.GetStringKey k = s.files.GetStringKey k := by
  unfold memFS.Create
  split
  · rfl
  · simp only [memFS.setfile]
    exact HashMap.GetStringKey_Set_ne _ _ _ hne

theorem Call.exec_no_entry {s s' : State} {c : Call} {r : Reply} {k : String}
    (h : Call.exec s c = some (s', r)) (habs : ∀ v, (k, v) ∉ s.files.entries)
    (hc : ∀ now b, c ≠ Call.Create k now b) : ∀ v, (k, v) ∉ s'.files.entries := by
  cases c with
  | Create key now b =>
    have hne : k ≠ key := fun e => hc now b (by rw [e])
    simp only [Call.exec, Option.some.injEq, Prod.mk.injEq] at h
    obtain ⟨rfl, _⟩ := h
    intro v hv
    unfold memFS.Create at hv
    split at hv
    · exact habs v hv
    · simp only [memFS.setfile, HashMap.Set, HashMap.Del, List.mem_cons, List.mem_filter,
        Prod.mk.injEq] at hv
      rcases hv with ⟨hk, _⟩ | ⟨hv, _⟩
      · exact hne hk
      · exact habs v hv
  | Remove key =>
    simp only [Call.exec, Option.some.injEq, Prod.mk.injEq] at h
    obtain ⟨rfl, _⟩ := h
    intro v hv
    simp only [memFS.Remove, HashMap.Del, List.mem_filter] at hv
    exact habs v hv.1
  | RemoveAll =>
    simp only [Call.exec, Option.some.injEq, Prod.mk.injEq] at h
    obtain ⟨rfl, _⟩ := h
    intro v hv
    simp [memFS.RemoveAll, HashMap.empty] at hv
  | Resized =>
    simp only [Call.exec, Option.some.injEq, Prod.mk.injEq] at h
    obtain ⟨rfl, _⟩ := h
    exact habs
  | Open name now =>
    rw [Call.exec_files_of_ne h (by simp) (by simp) (by simp) (by simp)]; exact habs
  | Reload => rw [Call.exec_files_of_ne h (by simp) (by simp) (by simp) (by simp)]; exact habs
  | AccessTimes name =>
    rw [Call.exec_files_of_ne h (by simp) (by simp) (by simp) (by simp)]; exact habs
  | Write hd p => rw [Call.exec_files_of_ne h (by simp) (by simp) (by simp) (by simp)]; exact habs
  | Read hd p => rw [Call.exec_files_of_ne h (by simp) (by simp) (by simp) (by simp)]; exact habs
  | ReadAt hd p off =>
    rw [Call.exec_files_of_ne h (by simp) (by simp) (by simp) (by simp)]; exact habs
  | Close hd => rw [Call.exec_files_of_ne h (by simp) (by simp) (by simp) (by simp)]; exact habs

theorem Call.exec_lookup_present {s s' : State} {c : Call} {r : Reply} {k : String} {f : Nat}
    (h : Call.exec s c = some (s', r)) (hp : s.files.GetStringKey k = some f)
    (h2 : c ≠ Call.Remove k) (h3 : c ≠ Call.RemoveAll) : s'.files.GetStringKey k = some f := by
  cases c with
  | Create key now b =>
    simp only [Call.exec, Option.some.injEq, Prod.mk.injEq] at h
    obtain ⟨rfl, _⟩ := h
    by_cases hk : k = key
    · subst hk
      rw [memFS.Create_of_present s k now b f hp]
      exact hp
    · rw [memFS.Create_lookup_ne s now b hk]
      exact hp
  | Remove key =>
    have hne : k ≠ key := fun e => h2 (by rw [e])
    simp only [Call.exec, Option.some.injEq, Prod.mk.injEq] at h
    obtain ⟨rfl, _⟩ := h
    simp only [memFS.Remove]
    rw [HashMap.GetStringKey_Del_ne _ hne]
    exact hp
  | RemoveAll => exact absurd rfl h3
  | Open name now => rw [Call.exec_files_of_ne h (by simp) (by simp) (by simp) (by simp)]; exact hp
  | Reload => rw [Call.exec_files_of_ne h (by simp) (by simp) (by simp) (by simp)]; exact hp
  | AccessTimes name => rw [Call.exec_files_of_ne h (by simp) (by simp) (by simp) (by simp)]; exact hp
  | Write hd p => rw [Call.exec_files_of_ne h (by simp) (by simp) (by simp) (by simp)]; exact hp
  | Read hd p => rw [Call.exec_files_of_ne h (by simp) (by simp) (by simp) (by simp)]; exact hp
  | ReadAt hd p off => rw [Call.exec_files_of_ne h (by simp) (by simp) (by simp) (by simp)]; exact hp
  | Close hd => rw [Call.exec_files_of_ne h (by simp) (by simp) (by simp) (by simp)]; exact hp
  | Resized =>
    simp only [Call.exec, Option.some.injEq, Prod.mk.injEq] at h
    obtain ⟨rfl, _⟩ := h
    exact HashMap.GetStringKey_resized_of_some hp

theorem run_cons_eq_some {s s' : State} {c : Call} {cs : List Call} {rs : List Reply}
    (h : run s (c :: cs) = some (s', rs)) :
    ∃ s1 r rs', Call.exec s c = some (s1, r) ∧ run s1 cs = some (s', rs') ∧ rs = r :: rs' := by
  simp only [run] at h
  split at h
  · rename_i s1 r he
    split at h
    · rename_i s2 rs' hr
      simp only [Option.some.injEq, Prod.mk.injEq] at h
      obtain ⟨rfl, rfl⟩ := h
      exact ⟨s1, r, rs', he, hr, rfl⟩
    · cases h
  · cases h

theorem run_no_entry (cs : List Call) :
    ∀ (s s' : State) (rs : List Reply) (k : String), run s cs = some (s', rs) →
      (∀ v, (k, v) ∉ s.files.entries) → (∀ now b, Call.Create k now b ∉ cs) →
      ∀ v, (k, v) ∉ s'.files.entries := by
  induction cs with
  | nil =>
    intro s s' rs k h habs _
    simp only [run, Option.some.injEq, Prod.mk.injEq] at h
    rw [← h.1]
    exact habs
  | cons c cs ih =>
    intro s s' rs k h habs hc
    obtain ⟨s1, r, rs', he, hr, _⟩ := run_cons_eq_some h
    exact ih s1 s' rs' k hr
      (Call.exec_no_entry he habs
        (fun now b e => hc now b (by rw [e]; exact List.mem_cons_self _ _)))
      (fun now b hm => hc now b (List.mem_cons_of_mem _ hm))

theorem run_lookup_present (cs : List Call) :
    ∀ (s s' : State) (rs : List Reply) (k : String) (f : Nat), run s cs = some (s', rs) →
      s.files.GetStringKey k = some f → f < s.memFiles.length →
      Call.Remove k ∉ cs → Call.RemoveAll ∉ cs →
      s'.files.GetStringKey k = some f ∧ f < s'.memFiles.length := by
  induction cs with
  | nil =>
    intro s s' rs k f h hp hlt _ _
    simp only [run, Option.some.injEq, Prod.mk.injEq] at h
    rw [← h.1]
    exact ⟨hp, hlt⟩
  | cons c cs ih =>
    intro s s' rs k f h hp hlt h2 h3
    obtain ⟨s1, r, rs', he, hr, _⟩ := run_cons_eq_some h
    exact ih s1 s' rs' k f hr
      (Call.exec_lookup_present he hp (fun e => h2 (by rw [e]; exact List.mem_cons_self _ _))
        (fun e => h3 (by rw [e]; exact List.mem_cons_self _ _)))
      (lt_of_lt_of_le hlt (Call.exec_length he))
      (fun hm => h2 (List.mem_cons_of_mem _ hm)) (fun hm => h3 (List.mem_cons_of_mem _ hm))

/-! ## Well-formedness is invariant -/

theorem mem_modify {α : Type} {g : α → α} {l : List α} {i : Nat} {x : α}
    (h : x ∈ l.modify g i) : x ∈ l ∨ ∃ y ∈ l, x = g y := by
  obtain ⟨j, hj⟩ := List.mem_iff_getElem?.mp h
  rw [List.getElem?_modify] at hj
  cases hl : l[j]? with
  | none => rw [hl] at hj; cases hj
  | some y =>
    rw [hl] at hj
    have hy : y ∈ l := List.mem_iff_getElem?.mpr ⟨j, hl⟩
    simp only [Option.map_eq_map, Option.map_some', Option.some.injEq] at hj
    by_cases hij : i = j
    · right
      exact ⟨y, hy, by rw [← hj, if_pos hij]⟩
    · left
      rw [if_neg hij] at hj
      rw [← hj]
      exact hy

theorem getElem?_lt {α : Type} {l : List α} {i : Nat} {a : α} (h : l[i]? = some a) :
    i < l.length := by
  rcases Nat.lt_or_ge i l.length with hlt | hge
  · exact hlt
  · rw [List.getElem?_eq_none hge] at h
    cases h

theorem NewMemFs_WF : NewMemFs.WF := by decide

theorem State.WF_Create {s : State} (hwf : s.WF) (key : String) (now : Time) (b : Bool) :
    (memFS.Create s key now b).1.WF := by
  unfold memFS.Create
  split
  · exact hwf
  · obtain ⟨h1, h2, h3⟩ := hwf
    refine ⟨?_, ?_, ?_⟩
    · intro e he
      simp only [memFS.setfile, HashMap.Set, HashMap.Del, List.mem_cons, List.mem_filter] at he
      simp only [memFS.setfile, List.length_append, List.length_singleton]
      rcases he with rfl | ⟨he, _⟩
      · exact Nat.lt_succ_self _
      · exact Nat.lt_succ_of_lt (h1 e he)
    · intro mr hmr
      simp only [memFS.setfile, List.length_append, List.length_singleton]
      exact Nat.lt_succ_of_lt (h2 mr hmr)
    · intro f hf
      simp only [memFS.setfile, List.length_append, List.length_singleton] at hf ⊢
      rcases Nat.lt_or_ge f s.memFiles.length with hlt | hge
      · rw [List.getElem?_append_left hlt]
        exact h3 f hlt
      · have hfe : f = s.memFiles.length := by omega
        rw [hfe, List.getElem?_concat_length]
        rfl

theorem State.WF_Open {s s' : State} {k : String} {t : Time} {x : Option File × Option GoError}
    (hwf : s.WF) (h : memFS.Open s k t = some (s', x)) : s'.WF := by
  unfold memFS.Open at h
  split at h
  · rename_i f hf
    split at h
    · rename_i mf hmf
      simp only [Option.some.injEq, Prod.mk.injEq] at h
      obtain ⟨rfl, _⟩ := h
      obtain ⟨h1, h2, h3⟩ := hwf
      have hlt := getElem?_lt hmf
      refine ⟨?_, ?_, ?_⟩
      · intro e he
        simpa using h1 e he
      · intro mr hmr
        simp only [List.mem_append, List.mem_singleton] at hmr
        simp only [List.length_set]
        rcases hmr with hmr | rfl
        · exact h2 mr hmr
        · exact hlt
      · intro g hg
        simp only [List.length_set] at hg
        simp only []
        by_cases hfg : f = g
        · subst hfg
          rw [List.getElem?_set_self hlt]
          have := h3 f hlt
          rw [hmf] at this
          exact this
        · rw [List.getElem?_set_ne hfg]
          exact h3 g hg
    · cases h
  · simp only [Option.some.injEq, Prod.mk.injEq] at h
    obtain ⟨rfl, _⟩ := h
    exact hwf

theorem State.WF_memFile_Write {s s' : State} {f : Nat} {p : List Byte} {x : Nat × Option GoError}
    (hwf : s.WF) (h : memFile.Write s f p = some (s', x)) : s'.WF := by
  cases hmf : s.memFiles[f]? with
  | none => simp [memFile.Write, hmf] at h
  | some mf =>
    rw [memFile.Write_eq s f p mf hmf] at h
    simp only [Option.some.injEq, Prod.mk.injEq] at h
    obtain ⟨rfl, _⟩ := h
    obtain ⟨h1, h2, h3⟩ := hwf
    have hlt := getElem?_lt hmf
    refine ⟨?_, ?_, ?_⟩
    · intro e he
      simpa using h1 e he
    · intro mr hmr
      simpa using h2 mr hmr
    · intro g hg
      simp only [List.length_set] at hg
      simp only []
      by_cases hfg : f = g
      · subst hfg
        rw [List.getElem?_set_self hlt]
        have := h3 f hlt
        rw [hmf] at this
        exact this
      · rw [List.getElem?_set_ne hfg]
        exact h3 g hg

theorem State.WF_Write {s s' : State} {h : File} {p : List Byte} {x : Nat × Option GoError}
    (hwf : s.WF) (hw : File.Write s h p = some (s', x)) : s'.WF := by
  cases h with
  | memFile f => exact State.WF_memFile_Write hwf hw
  | memReader r =>
    simp only [File.Write] at hw
    split at hw
    · exact State.WF_memFile_Write hwf hw
    · cases hw

theorem State.WF_setN {s : State} (hwf : s.WF) (h : File) (n : Int) : (File.setN s h n).WF := by
  obtain ⟨h1, h2, h3⟩ := hwf
  cases h with
  | memFile f =>
    refine ⟨?_, ?_, ?_⟩
    · intro e he
      simpa [File.setN] using h1 e he
    · intro mr hmr
      simpa [File.setN] using h2 mr hmr
    · intro g hg
      simp only [File.setN, List.length_modify] at hg ⊢
      rw [List.getElem?_modify]
      have := h3 g hg
      cases hl : s.memFiles[g]? with
      | none => rw [hl] at this; cases this
      | some mf =>
        rw [hl] at this
        by_cases hfg : f = g
        · simpa [hfg] using this
        · simpa [hfg] using this
  | memReader r =>
    refine ⟨h1, ?_, h3⟩
    intro mr hmr
    simp only [File.setN] at hmr ⊢
    rcases mem_modify hmr with hm | ⟨y, hy, rfl⟩
    · exact h2 mr hm
    · exact h2 y hy

theorem State.WF_Read {s s' : State} {h : File} {p : List Byte} {x : ReadResult}
    (hwf : s.WF) (hr : File.Read s h p = some (s', x)) : s'.WF := by
  simp only [File.Read, memReader.Read] at hr
  split at hr
  · split at hr
    · split at hr
      · simp only [Option.some.injEq, Prod.mk.injEq] at hr
        obtain ⟨rfl, _⟩ := hr
        exact State.WF_setN hwf _ _
      · cases hr
    · cases hr
  · cases hr

theorem State.WF_exec {s s' : State} {c : Call} {r : Reply}
    (hwf : s.WF) (h : Call.exec s c = some (s', r)) : s'.WF := by
  cases c with
  | Create key now b =>
    simp only [Call.exec, Option.some.injEq, Prod.mk.injEq] at h
    obtain ⟨rfl, _⟩ := h
    exact State.WF_Create hwf key now b
  | Open name now =>
    simp only [Call.exec, Option.map_eq_some'] at h
    obtain ⟨⟨s1, x⟩, ho, he⟩ := h
    simp only [Prod.mk.injEq] at he
    obtain ⟨rfl, _⟩ := he
    exact State.WF_Open hwf ho
  | Remove key =>
    simp only [Call.exec, Option.some.injEq, Prod.mk.injEq] at h
    obtain ⟨rfl, _⟩ := h
    obtain ⟨h1, h2, h3⟩ := hwf
    refine ⟨?_, h2, h3⟩
    intro e he
    simp only [memFS.Remove, HashMap.Del, List.mem_filter] at he
    exact h1 e he.1
  | RemoveAll =>
    simp only [Call.exec, Option.some.injEq, Prod.mk.injEq] at h
    obtain ⟨rfl, _⟩ := h
    obtain ⟨h1, h2, h3⟩ := hwf
    refine ⟨?_, h2, h3⟩
    intro e he
    simp [memFS.RemoveAll, HashMap.empty] at he
  | Reload =>
    simp only [Call.exec, Option.some.injEq, Prod.mk.injEq] at h
    obtain ⟨rfl, _⟩ := h
    exact hwf
  | AccessTimes name =>
    simp only [Call.exec, Option.map_eq_some'] at h
    obtain ⟨x, _, he⟩ := h
    simp only [Prod.mk.injEq] at he
    obtain ⟨rfl, _⟩ := he
    exact hwf
  | Write hd p =>
    simp only [Call.exec, Option.map_eq_some'] at h
    obtain ⟨⟨s1, x⟩, ho, he⟩ := h
    simp only [Prod.mk.injEq] at he
    obtain ⟨rfl, _⟩ := he
    exact State.WF_Write hwf ho
  | Read hd p =>
    simp only [Call.exec, Option.map_eq_some'] at h
    obtain ⟨⟨s1, x⟩, ho, he⟩ := h
    simp only [Prod.mk.injEq] at he
    obtain ⟨rfl, _⟩ := he
    exact State.WF_Read hwf ho
  | ReadAt hd p off =>
    simp only [Call.exec, Option.map_eq_some'] at h
    obtain ⟨⟨s1, x⟩, ho, he⟩ := h
    simp only [Prod.mk.injEq] at he
    obtain ⟨rfl, _⟩ := he
    rw [File.ReadAt_frame ho]
    exact hwf
  | Close hd =>
    simp only [Call.exec, Option.some.injEq, Prod.mk.injEq] at h
    obtain ⟨rfl, _⟩ := h
    cases hd <;> exact hwf
  | Resized =>
    simp only [Call.exec, Option.some.injEq, Prod.mk.injEq] at h
    obtain ⟨rfl, _⟩ := h
    exact hwf

theorem State.WF_run (cs : List Call) :
    ∀ (s s' : State) (rs : List Reply), s.WF → run s cs = some (s', rs) → s'.WF := by
  induction cs with
  | nil =>
    intro s s' rs hwf h
    simp only [run, Option.some.injEq, Prod.mk.injEq] at h
    rw [← h.1]
    exact hwf
  | cons c cs ih =>
    intro s s' rs hwf h
    obtain ⟨s1, r, rs', he, hr, _⟩ := run_cons_eq_some h
    exact ih s1 s' rs' (State.WF_exec hwf he) hr

/-! ## Step-by-step descriptions of the calls -/

theorem memFS.Create_ok_inv {s s1 : State} {k : String} {t : Time} {b : Bool} {w : File}
    (h : memFS.Create s k t b = (s1, some w, none)) :
    s.files.GetStringKey k = none ∧ w = File.memFile s.memFiles.length ∧
      s1.files = s.files.Set k s.memFiles.length b ∧
      s.memFiles.length < s1.memFiles.length := by
  cases hk : s.files.GetStringKey k with
  | some f =>
    rw [memFS.Create_of_present s k t b f hk] at h
    simp at h
  | none =>
    rw [memFS.Create_of_absent s k t b hk] at h
    simp only [Prod.mk.injEq, Option.some.injEq, and_true] at h
    obtain ⟨rfl, rfl⟩ := h
    exact ⟨rfl, rfl, rfl, by simp⟩

theorem memFS.Open_of_WF {s : State} (hwf : s.WF) (k : String) (t : Time) (f : Nat)
    (h : s.files.GetStringKey k = some f) :
    ∃ mf, s.memFiles[f]? = some mf ∧
      memFS.Open s k t =
        some ({ files := s.files,
                memFiles := s.memFiles.set f { mf with rt := t },
                memReaders := s.memReaders ++ [{ memFile := f, n := 0 }] },
              some (File.memReader s.memReaders.length), none) := by
  have hlt : f < s.memFiles.length := hwf.1 (k, f) (HashMap.GetStringKey_mem h)
  refine ⟨s.memFiles[f], List.getElem?_eq_getElem hlt, ?_⟩
  exact memFS.Open_of_present s k t f _ h (List.getElem?_eq_getElem hlt)

theorem memFS.Create_absent_spec (s : State) (k : String) (t : Time) (b : Bool)
    (h : s.files.GetStringKey k = none) :
    ∃ s1, memFS.Create s k t b = (s1, some (File.memFile s.memFiles.length), none) ∧
      s1.files = s.files.Set k s.memFiles.length b ∧ s1.memReaders = s.memReaders ∧
      s1.memFiles.length = s.memFiles.length + 1 ∧
      s1.memFiles[s.memFiles.length]? = some
        { name := k, r := [], memReader := { memFile := s.memFiles.length, n := 0 },
          rt := 0, wt := t } ∧
      ∀ g, g < s.memFiles.length → s1.memFiles[g]? = s.memFiles[g]? := by
  refine ⟨_, memFS.Create_of_absent s k t b h, rfl, rfl, by simp, ?_, ?_⟩
  · exact List.getElem?_concat_length _ _
  · intro g hg
    exact List.getElem?_append_left hg

theorem writeAll_memFile_spec (cs : List (List Byte)) (s : State) (f : Nat) (mf : memFile)
    (h : s.memFiles[f]? = some mf) :
    ∃ s', writeAll s (File.memFile f) cs = some s' ∧
      s'.files = s.files ∧ s'.memReaders = s.memReaders ∧
      s'.memFiles.length = s.memFiles.length ∧
      s'.memFiles[f]? = some { mf with r := mf.r ++ cs.flatten } ∧
      ∀ g, g ≠ f → s'.memFiles[g]? = s.memFiles[g]? := by
  refine ⟨_, writeAll_memFile cs s f mf h, rfl, rfl, by simp, ?_, ?_⟩
  · exact List.getElem?_set_self (getElem?_lt h)
  · intro g hg
    exact List.getElem?_set_ne (Ne.symm hg)

theorem memFS.Open_present_spec (s : State) (k : String) (t : Time) (f : Nat) (mf : memFile)
    (h : s.files.GetStringKey k = some f) (hf : s.memFiles[f]? = some mf) :
    ∃ s', memFS.Open s k t = some (s', some (File.memReader s.memReaders.length), none) ∧
      s'.files = s.files ∧ s'.memFiles.length = s.memFiles.length ∧
      s'.memFiles[f]? = some { mf with rt := t } ∧
      (∀ g, g ≠ f → s'.memFiles[g]? = s.memFiles[g]?) ∧
      s'.memReaders[s.memReaders.length]? = some { memFile := f, n := 0 } ∧
      s'.memReaders.length = s.memReaders.length + 1 ∧
      ∀ q, q < s.memReaders.length → s'.memReaders[q]? = s.memReaders[q]? := by
  refine ⟨_, memFS.Open_of_present s k t f mf h hf, rfl, by simp, ?_, ?_, ?_, by simp, ?_⟩
  · exact List.getElem?_set_self (getElem?_lt hf)
  · intro g hg
    exact List.getElem?_set_ne (Ne.symm hg)
  · exact List.getElem?_concat_length _ _
  · intro q hq
    exact List.getElem?_append_left hq

theorem memFS.Open_ok_inv {s s1 : State} {k : String} {t : Time} {r : File}
    (h : memFS.Open s k t = some (s1, some r, none)) :
    ∃ f mf, s.files.GetStringKey k = some f ∧ s.memFiles[f]? = some mf ∧
      s1.files = s.files ∧ s1.memFiles[f]? = some { mf with rt := t } := by
  cases hk : s.files.GetStringKey k with
  | none =>
    rw [memFS.Open_of_absent s k t hk] at h
    simp at h
  | some f =>
    cases hf : s.memFiles[f]? with
    | none => simp [memFS.Open, memFS.file, hk, hf] at h
    | some mf =>
      rw [memFS.Open_of_present s k t f mf hk hf] at h
      simp only [Option.some.injEq, Prod.mk.injEq, and_true] at h
      obtain ⟨rfl, _⟩ := h
      exact ⟨f, mf, rfl, hf, rfl, List.getElem?_set_self (getElem?_lt hf)⟩

theorem memFS.Open_ok_spec {s s1 : State} {k : String} {t : Time} {r : File} {f : Nat}
    {mf : memFile} (h : memFS.Open s k t = some (s1, some r, none))
    (hk : s.files.GetStringKey k = some f) (hf : s.memFiles[f]? = some mf) :
    r = File.memReader s.memReaders.length ∧
      s1.files = s.files ∧ s1.memFiles.length = s.memFiles.length ∧
      s1.memFiles[f]? = some { mf with rt := t } ∧
      (∀ g, g ≠ f → s1.memFiles[g]? = s.memFiles[g]?) ∧
      s1.memReaders[s.memReaders.length]? = some { memFile := f, n := 0 } ∧
      s1.memReaders.length = s.memReaders.length + 1 ∧
      ∀ q, q < s.memReaders.length → s1.memReaders[q]? = s.memReaders[q]? := by
  obtain ⟨s', ho, h1, h2, h3, h4, h5, h6, h7⟩ := memFS.Open_present_spec s k t f mf hk hf
  rw [ho] at h
  simp only [Option.some.injEq, Prod.mk.injEq, and_true] at h
  obtain ⟨rfl, rfl⟩ := h
  exact ⟨rfl, h1, h2, h3, h4, h5, h6, h7⟩

theorem readUntilEOF_of_Open {s s3 : State} {k : String} {t : Time} {r : File} {f : Nat}
    {mf : memFile} (bufs : List (List Byte))
    (ho : memFS.Open s k t = some (s3, some r, none))
    (hk : s.files.GetStringKey k = some f) (hf : s.memFiles[f]? = some mf)
    (hne : ∀ b ∈ bufs, b ≠ []) (hlen : mf.r.length < bufs.length) :
    ∃ s4, readUntilEOF s3 r bufs = some (s4, mf.r, true) := by
  obtain ⟨hr, _, _, h3, _, h5, _, _⟩ := memFS.Open_ok_spec ho hk hf
  subst hr
  obtain ⟨s4, h4⟩ := readUntilEOF_memReader bufs s3 s.memReaders.length f 0
    { mf with rt := t } h5 h3 (Nat.zero_le _) hne (by simpa using hlen)
  exact ⟨s4, by simpa using h4⟩

/-! ## Round trip -/

/-- C1: on a store where the lookup of key `k` finds nothing, `Create(k)` returns
a writer; after writing the chunks `chunks` through it, every reader that
`Open(k)` returns, at once or after the index has finished a resize, delivers
exactly the concatenation of the chunks when it is read sequentially with any
non-empty buffers until `io.EOF` (which is reached as soon as there are more
buffers than bytes), wherever the chunk and buffer boundaries fall.  `Open(k)`
does return a reader when the `Create` did not fall in a resize of the index,
and in any case once the resize has ended. -/
theorem C1_round_trip (s : State) (k : String) (t t' : Time) (b : Bool)
    (chunks bufs : List (List Byte))
    (habs : s.files.GetStringKey k = none)
    (hne : ∀ x ∈ bufs, x ≠ [])
    (hlen : chunks.flatten.length < bufs.length) :
    ∃ w s1 s2,
      memFS.Create s k t b = (s1, some w, none) ∧
      writeAll s1 w chunks = some s2 ∧
      (∀ s3 r, memFS.Open s2 k t' = some (s3, some r, none) →
        ∃ s4, readUntilEOF s3 r bufs = some (s4, chunks.flatten, true)) ∧
      (∀ s3 r, memFS.Open (memFS.resized s2) k t' = some (s3, some r, none) →
        ∃ s4, readUntilEOF s3 r bufs = some (s4, chunks.flatten, true)) ∧
      (b = false → ∃ s3 r, memFS.Open s2 k t' = some (s3, some r, none)) ∧
      (∃ s3 r, memFS.Open (memFS.resized s2) k t' = some (s3, some r, none)) := by
  obtain ⟨s1, hc1, hfi1, _, _, hnew1, _⟩ := memFS.Create_absent_spec s k t b habs
  obtain ⟨s2, hw, hfi2, _, _, hf2, _⟩ :=
    writeAll_memFile_spec chunks s1 s.memFiles.length _ hnew1
  have hfiles : s2.files = s.files.Set k s.memFiles.length b := by rw [hfi2, hfi1]
  have hf2r : (memFS.resized s2).memFiles[s.memFiles.length]? = _ := hf2
  have hidxr : (memFS.resized s2).files.GetStringKey k = some s.memFiles.length := by
    simp only [memFS.resized, hfiles]
    exact HashMap.GetStringKey_resized_Set _ _ _ _
  refine ⟨_, s1, s2, hc1, hw, ?_, ?_, ?_, ?_⟩
  · intro s3 r ho
    obtain ⟨f, mf, hk, _, _, _⟩ := memFS.Open_ok_inv ho
    have hfL : f = s.memFiles.length := by
      rw [hfiles] at hk
      exact HashMap.GetStringKey_Set_some hk
    subst hfL
    obtain ⟨s4, h4⟩ := readUntilEOF_of_Open bufs ho hk hf2 hne (by simpa using hlen)
    exact ⟨s4, by simpa using h4⟩
  · intro s3 r ho
    obtain ⟨s4, h4⟩ := readUntilEOF_of_Open bufs ho hidxr hf2r hne (by simpa using hlen)
    exact ⟨s4, by simpa using h4⟩
  · intro hb
    subst hb
    have hidx : s2.files.GetStringKey k = some s.memFiles.length := by
      rw [hfiles]
      exact HashMap.GetStringKey_Set_shown _ _ _
    exact ⟨_, _, memFS.Open_of_present s2 k t' _ _ hidx hf2⟩
  · exact ⟨_, _, memFS.Open_of_present (memFS.resized s2) k t' _ _ hidxr hf2r⟩

/-- C1 on the chunks "ab", "cde", "f" read back through buffers of sizes 2, 1, 4,
1, 1, 1, 1, with a `Create` outside any resize: `Open` returns a reader and the
reader delivers "abcdef". -/
theorem C1_round_trip_witness :
    (NewMemFs.files.GetStringKey "k" = none ∧
      (∀ x ∈ [[0, 0], [0], [0, 0, 0, 0], [0], [0], [0], [0]], x ≠ ([] : List Byte)) ∧
      ([[97, 98], [99, 100, 101], [102]] : List (List Byte)).flatten.length <
        [[0, 0], [0], [0, 0, 0, 0], [0], [0], [0], [0]].length) ∧
    ∃ w s1 s2 s3 r s4,
      memFS.Create NewMemFs "k" 1 false = (s1, some w, none) ∧
      writeAll s1 w [[97, 98], [99, 100, 101], [102]] = some s2 ∧
      memFS.Open s2 "k" 2 = some (s3, some r, none) ∧
      readUntilEOF s3 r [[0, 0], [0], [0, 0, 0, 0], [0], [0], [0], [0]] =
        some (s4, [[97, 98], [99, 100, 101], [102]].flatten, true) := by
  refine ⟨⟨by decide, by decide, by decide⟩, ?_⟩
  obtain ⟨w, s1, s2, hc, hw, hread, _, hopen, _⟩ :=
    C1_round_trip NewMemFs "k" 1 2 false [[97, 98], [99, 100, 101], [102]]
      [[0, 0], [0], [0, 0, 0, 0], [0], [0], [0], [0]] (by decide) (by decide) (by decide)
  obtain ⟨s3, r, ho⟩ := hopen rfl
  obtain ⟨s4, h4⟩ := hread s3 r ho
  exact ⟨w, s1, s2, s3, r, s4, hc, hw, ho, h4⟩

/-! ## Create on an existing key -/

/-- C2, at the failing input: ten keys are created and the tenth `Create`,
of "k9", falls in a resize of the index; its entry exists, but the lookup that
the next `Create("k9")` makes does not reach it, so that call returns a second
writer handle and no error, and the store then holds two entries named "k9". -/
theorem C2_second_create_during_resize :
    (run NewMemFs [Call.Create "k0" 0 false, Call.Create "k1" 1 false,
        Call.Create "k2" 2 false, Call.Create "k3" 3 false, Call.Create "k4" 4 false,
        Call.Create "k5" 5 false, Call.Create "k6" 6 false, Call.Create "k7" 7 false,
        Call.Create "k8" 8 false, Call.Create "k9" 9 true,
        Call.Create "k9" 10 false]).map
        (fun x => (x.2.drop 9, (x.1.memFiles.map (fun mf => mf.name)).drop 9)) =
      some ([Reply.file (some (File.memFile 9)) none, Reply.file (some (File.memFile 10)) none],
            ["k9", "k9"]) := by
  decide

/-! ## Open -/

theorem memFS.Open_iff_lookup (cs : List Call) (s : State) (rs : List Reply) (k : String)
    (t : Time) (hreach : run NewMemFs cs = some (s, rs)) :
    ((∃ s' r, memFS.Open s k t = some (s', some r, none)) ↔ s.files.GetStringKey k ≠ none) ∧
    (s.files.GetStringKey k = none →
      memFS.Open s k t = some (s, none, some (GoError.New "file does not exist"))) ∧
    ((∀ now b, Call.Create k now b ∉ cs) →
      memFS.Open s k t = some (s, none, some (GoError.New "file does not exist"))) := by
  have hwf : s.WF := State.WF_run cs NewMemFs s rs NewMemFs_WF hreach
  refine ⟨?_, ?_, ?_⟩
  · constructor
    · rintro ⟨s', r, ho⟩ hk
      rw [memFS.Open_of_absent s k t hk] at ho
      simp at ho
    · intro hk
      cases hf : s.files.GetStringKey k with
      | none => exact absurd hf hk
      | some f =>
        obtain ⟨mf, _, ho⟩ := memFS.Open_of_WF hwf k t f hf
        exact ⟨_, _, ho⟩
  · exact memFS.Open_of_absent s k t
  · intro hc
    apply memFS.Open_of_absent s k t
    apply HashMap.GetStringKey_of_not_mem
    exact run_no_entry cs NewMemFs s rs k hreach (by simp [NewMemFs, HashMap.empty]) hc

/-- C3, at the failing input: ten keys are created and the tenth `Create`,
of "k9", falls in a resize of the index; it returns a writer handle, and the
`Open("k9")` made right after it, with no `Remove` or `RemoveAll` in between,
returns no reader and the error "file does not exist". -/
theorem C3_open_after_create_during_resize :
    (run NewMemFs [Call.Create "k0" 0 false, Call.Create "k1" 1 false,
        Call.Create "k2" 2 false, Call.Create "k3" 3 false, Call.Create "k4" 4 false,
        Call.Create "k5" 5 false, Call.Create "k6" 6 false, Call.Create "k7" 7 false,
        Call.Create "k8" 8 false, Call.Create "k9" 9 true,
        Call.Open "k9" 10]).map (fun x => x.2.drop 9) =
      some [Reply.file (some (File.memFile 9)) none,
            Reply.file none (some (GoError.New "file does not exist"))] := by
  decide

/-! ## Create, Remove, Create -/

/-- C4: on a store where the lookup of key `k` finds nothing, `Create(k)`,
`Remove(k)`, `Create(k)` all succeed, and the second `Create` makes a new, empty
entry: whatever was written through the first writer before the removal (`a`),
after the second `Create` (`b`) or after the `Open` (`c`), every reader that
`Open(k)` returns after the second `Create` is bound to the second entry, whose
content stays empty, and its `Read` delivers no byte and reports `io.EOF`.
`Open(k)` does return a reader when the second `Create` did not fall in a
resize of the index. -/
theorem C4_create_remove_create (s : State) (k : String) (t1 t2 t3 : Time) (i1 i2 : Bool)
    (a b c : List (List Byte)) (p : List Byte) (habs : s.files.GetStringKey k = none) :
    ∃ w1 s1 s1' s2 w2 s3 s3',
      memFS.Create s k t1 i1 = (s1, some w1, none) ∧
      writeAll s1 w1 a = some s1' ∧
      memFS.Remove s1' k = (s2, none) ∧
      memFS.Create s2 k t2 i2 = (s3, some w2, none) ∧
      w2 ≠ w1 ∧ File.entry s3 w2 ≠ File.entry s3 w1 ∧
      File.content s3 w2 = some [] ∧
      writeAll s3 w1 b = some s3' ∧
      (∀ s4 r, memFS.Open s3' k t3 = some (s4, some r, none) →
        File.entry s4 r = File.entry s3 w2 ∧
        ∃ s4' s5, writeAll s4 w1 c = some s4' ∧
          File.content s4' w1 = some (a.flatten ++ b.flatten ++ c.flatten) ∧
          File.content s4' r = some [] ∧
          File.Read s4' r p = some (s5, { n := 0, err := some GoError.EOF, p := p })) ∧
      (i2 = false → ∃ s4 r, memFS.Open s3' k t3 = some (s4, some r, none)) := by
  obtain ⟨s1, hc1, hfi1, hrd1, hlen1, hnew1, _⟩ := memFS.Create_absent_spec s k t1 i1 habs
  obtain ⟨s1', hw1, hfi1', hrd1', hlen1', hf1', _⟩ :=
    writeAll_memFile_spec a s1 s.memFiles.length _ hnew1
  have habs2 : (memFS.Remove s1' k).1.files.GetStringKey k = none :=
    HashMap.GetStringKey_Del_self _ _
  obtain ⟨s3, hc3, hfi3, hrd3, hlen3, hnew3, hold3⟩ :=
    memFS.Create_absent_spec (memFS.Remove s1' k).1 k t2 i2 habs2
  have hL : (memFS.Remove s1' k).1.memFiles.length = s.memFiles.length + 1 := by
    simp only [memFS.Remove]
    rw [hlen1', hlen1]
  rw [hL] at hc3 hfi3 hlen3 hnew3 hold3
  have h3L : s3.memFiles[s.memFiles.length]? = some
      { name := k, r := [] ++ a.flatten, memReader := { memFile := s.memFiles.length, n := 0 },
        rt := 0, wt := t1 } := by
    rw [hold3 _ (Nat.lt_succ_self _)]
    exact hf1'
  obtain ⟨s3', hw3, hfi3', hrd3', hlen3', hf3', hne3'⟩ :=
    writeAll_memFile_spec b s3 s.memFiles.length _ h3L
  have hfiles3' : s3'.files =
      (memFS.Remove s1' k).1.files.Set k (s.memFiles.length + 1) i2 := by
    rw [hfi3', hfi3]
  have hnew3' : s3'.memFiles[s.memFiles.length + 1]? = some
      { name := k, r := [], memReader := { memFile := s.memFiles.length + 1, n := 0 },
        rt := 0, wt := t2 } := by
    rw [hne3' _ (Nat.succ_ne_self _)]
    exact hnew3
  refine ⟨_, s1, s1', (memFS.Remove s1' k).1, _, s3, s3',
    hc1, hw1, rfl, hc3, ?_, ?_, ?_, hw3, ?_, ?_⟩
  · simp
  · simp [File.entry, File.reader, hnew3, h3L]
  · simp [File.content, File.reader, hnew3, memFile.Bytes]
  · intro s4 r ho
    obtain ⟨f, mf, hk, _, _, _⟩ := memFS.Open_ok_inv ho
    have hfL : f = s.memFiles.length + 1 := by
      rw [hfiles3'] at hk
      exact HashMap.GetStringKey_Set_some hk
    subst hfL
    obtain ⟨hr, hfi4, hlen4, hf4, hne4, hq4, hrl4, _⟩ := memFS.Open_ok_spec ho hk hnew3'
    subst hr
    have h4L : s4.memFiles[s.memFiles.length]? = some
        { name := k, r := [] ++ a.flatten ++ b.flatten,
          memReader := { memFile := s.memFiles.length, n := 0 }, rt := 0, wt := t1 } := by
      rw [hne4 _ (Nat.succ_ne_self _).symm]
      exact hf3'
    obtain ⟨s4', hw4, hfi4', hrd4', hlen4', hf4', hne4'⟩ :=
      writeAll_memFile_spec c s4 s.memFiles.length _ h4L
    have hq4' : s4'.memReaders[s3'.memReaders.length]? =
        some { memFile := s.memFiles.length + 1, n := ((0 : Nat) : Int) } := by
      rw [hrd4']
      exact hq4
    have hnew4' : s4'.memFiles[s.memFiles.length + 1]? = some
        { name := k, r := [], memReader := { memFile := s.memFiles.length + 1, n := 0 },
          rt := t3, wt := t2 } := by
      rw [hne4' _ (Nat.succ_ne_self _)]
      exact hf4
    have hread := File.Read_eq s4' (File.memReader s3'.memReaders.length) p _ [] 0
      (by simpa [File.reader] using hq4') (by simp [memFile.Bytes, hnew4']) rfl (Nat.le_refl _)
    obtain ⟨s5, hread5⟩ : ∃ s5, File.Read s4' (File.memReader s3'.memReaders.length) p =
        some (s5, { n := 0, err := some GoError.EOF, p := p }) := by
      rw [hread]
      simp [bytesReaderRead_nil]
    refine ⟨?_, s4', s5, hw4, ?_, ?_, hread5⟩
    · simp [File.entry, File.reader, hq4, hnew3]
    · simp [File.content, File.reader, hf4', memFile.Bytes]
    · simp [File.content, File.reader, hq4', hnew4', memFile.Bytes]
  · intro hi
    subst hi
    have hidx : s3'.files.GetStringKey k = some (s.memFiles.length + 1) := by
      rw [hfiles3']
      exact HashMap.GetStringKey_Set_shown _ _ _
    exact ⟨_, _, memFS.Open_of_present s3' k t3 _ _ hidx hnew3'⟩

/-- C4 on the empty store, writing "ab" before the removal and "c" after the
second `Create`, with both `Create` outside any resize: `Open` returns a reader,
which reads nothing. -/
theorem C4_create_remove_create_witness :
    NewMemFs.files.GetStringKey "k" = none ∧
    ∃ w1 s1 s1' s2 w2 s3 s3' s4 r s4' s5,
      memFS.Create NewMemFs "k" 1 false = (s1, some w1, none) ∧
      writeAll s1 w1 [[97, 98]] = some s1' ∧
      memFS.Remove s1' "k" = (s2, none) ∧
      memFS.Create s2 "k" 2 false = (s3, some w2, none) ∧
      w2 ≠ w1 ∧
      File.content s3 w2 = some [] ∧
      writeAll s3 w1 [[99]] = some s3' ∧
      memFS.Open s3' "k" 3 = some (s4, some r, none) ∧
      File.entry s4 r = File.entry s3 w2 ∧
      writeAll s4 w1 [] = some s4' ∧
      File.content s4' r = some [] ∧
      File.Read s4' r [0, 0] = some (s5, { n := 0, err := some GoError.EOF, p := [0, 0] }) := by
  refine ⟨by decide, ?_⟩
  obtain ⟨w1, s1, s1', s2, w2, s3, s3', h1, h2, h3, h4, h5, _, h7, h8, hcond, hopen⟩ :=
    C4_create_remove_create NewMemFs "k" 1 2 3 false false [[97, 98]] [[99]] [] [0, 0]
      (by decide)
  obtain ⟨s4, r, ho⟩ := hopen rfl
  obtain ⟨he, s4', s5, hw, _, hc, hr⟩ := hcond s4 r ho
  exact ⟨w1, s1, s1', s2, w2, s3, s3', s4, r, s4', s5, h1, h2, h3, h4, h5, h7, h8, ho, he, hw,
    hc, hr⟩

/-! ## Handle calls do not look at the index -/

theorem File.setN_with_files (s : State) (m : HashMap) (h : File) (n : Int) :
    File.setN { s with files := m } h n = { File.setN s h n with files := m } := by
  cases h <;> rfl

theorem File.reader_with_files (s : State) (m : HashMap) (h : File) :
    File.reader { s with files := m } h = File.reader s h := by
  cases h <;> rfl

theorem memFile.Write_with_files_obj (s : State) (m : HashMap) (f : Nat) (p : List Byte) :
    memFile.Write { s with files := m } f p =
      (memFile.Write s f p).map (fun x => ({ x.1 with files := m }, x.2)) := by
  unfold memFile.Write
  cases s.memFiles[f]? with
  | none => rfl
  | some mf =>
    simp only []
    split <;> rfl

theorem File.Write_with_files (s : State) (m : HashMap) (h : File) (p : List Byte) :
    File.Write { s with files := m } h p =
      (File.Write s h p).map (fun x => ({ x.1 with files := m }, x.2)) := by
  cases h with
  | memFile f => exact memFile.Write_with_files_obj s m f p
  | memReader r =>
    simp only [File.Write]
    cases s.memReaders[r]? with
    | none => rfl
    | some mr => exact memFile.Write_with_files_obj s m mr.memFile p

theorem File.Read_with_files (s : State) (m : HashMap) (h : File) (p : List Byte) :
    File.Read { s with files := m } h p =
      (File.Read s h p).map (fun x => ({ x.1 with files := m }, x.2)) := by
  simp only [File.Read, memReader.Read, File.reader_with_files]
  cases File.reader s h with
  | none => rfl
  | some mr =>
    simp only [memFile.Bytes]
    cases s.memFiles[mr.memFile]? with
    | none => rfl
    | some mf =>
      simp only [Option.map_some']
      cases sliceFrom mf.r mr.n with
      | none => rfl
      | some d => simp [File.setN_with_files]

theorem File.ReadAt_with_files (s : State) (m : HashMap) (h : File) (p : List Byte) (off : Int) :
    File.ReadAt { s with files := m } h p off =
      (File.ReadAt s h p off).map (fun x => ({ x.1 with files := m }, x.2)) := by
  simp only [File.ReadAt, memReader.ReadAt, File.reader_with_files]
  cases File.reader s h with
  | none => rfl
  | some mr =>
    simp only [memFile.Bytes]
    cases s.memFiles[mr.memFile]? with
    | none => rfl
    | some mf =>
      simp only [Option.map_some']
      split
      · rfl
      · cases sliceFrom mf.r off with
        | none => rfl
        | some d => rfl

theorem Call.exec_with_files (s : State) (m : HashMap) (c : Call) (hc : c.onHandle = true) :
    Call.exec { s with files := m } c =
      (Call.exec s c).map (fun x => ({ x.1 with files := m }, x.2)) := by
  cases c with
  | Write h p =>
    simp only [Call.exec, File.Write_with_files, Option.map_map]
    rfl
  | Read h p =>
    simp only [Call.exec, File.Read_with_files, Option.map_map]
    rfl
  | ReadAt h p off =>
    simp only [Call.exec, File.ReadAt_with_files, Option.map_map]
    rfl
  | Close h => cases h <;> rfl
  | Create key now b => simp [Call.onHandle] at hc
  | Resized => simp [Call.onHandle] at hc
  | Open name now => simp [Call.onHandle] at hc
  | Remove key => simp [Call.onHandle] at hc
  | RemoveAll => simp [Call.onHandle] at hc
  | Reload => simp [Call.onHandle] at hc
  | AccessTimes name => simp [Call.onHandle] at hc

theorem run_with_files (cs : List Call) :
    ∀ (s : State) (m : HashMap), (∀ c ∈ cs, c.onHandle = true) →
      run { s with files := m } cs = (run s cs).map (fun x => ({ x.1 with files := m }, x.2)) := by
  induction cs with
  | nil =>
    intro s m _
    rfl
  | cons c cs ih =>
    intro s m hc
    simp only [run]
    rw [Call.exec_with_files s m c (hc c (List.mem_cons_self _ _))]
    cases Call.exec s c with
    | none => rfl
    | some x =>
      obtain ⟨s1, r⟩ := x
      simp only [Option.map_some']
      rw [ih s1 m (fun c' hc' => hc c' (List.mem_cons_of_mem _ hc'))]
      cases run s1 cs with
      | none => rfl
      | some y => rfl

theorem run_files_of_onHandle (cs : List Call) :
    ∀ (s s' : State) (rs : List Reply), (∀ c ∈ cs, c.onHandle = true) →
      run s cs = some (s', rs) → s'.files = s.files := by
  induction cs with
  | nil =>
    intro s s' rs _ h
    simp only [run, Option.some.injEq, Prod.mk.injEq] at h
    rw [← h.1]
  | cons c cs ih =>
    intro s s' rs hc h
    obtain ⟨s1, r, rs', he, hr, _⟩ := run_cons_eq_some h
    have hon := hc c (List.mem_cons_self _ _)
    rw [ih s1 s' rs' (fun c' hc' => hc c' (List.mem_cons_of_mem _ hc')) hr]
    apply Call.exec_files_of_ne he
    · intro key now b e
      rw [e] at hon
      simp [Call.onHandle] at hon
    · intro key e
      rw [e] at hon
      simp [Call.onHandle] at hon
    · intro e
      rw [e] at hon
      simp [Call.onHandle] at hon
    · intro e
      rw [e] at hon
      simp [Call.onHandle] at hon

/-! ## Remove and RemoveAll -/

/-- C7: `Remove(k)` changes no entry's content and no cursor; every sequence of
calls on handles gets the same replies after `Remove(k)` as without it; and for a
writer from `Create(k)` and every reader that `Open(k)` returned before
`Remove(k)`, a `Write(p)` on the writer after the removal succeeds with count
`len(p)`, and reading the reader to `io.EOF` then delivers everything written,
`p` included.  `Open(k)` does return a reader when the `Create` did not fall in
a resize of the index. -/
theorem C7_handles_outlive_remove (s : State) (k : String) :
    (memFS.Remove s k).1.memFiles = s.memFiles ∧
    (memFS.Remove s k).1.memReaders = s.memReaders ∧
    (∀ h : File, File.content (memFS.Remove s k).1 h = File.content s h ∧
      File.pos (memFS.Remove s k).1 h = File.pos s h) ∧
    (∀ cs : List Call, (∀ c ∈ cs, c.onHandle = true) →
      run (memFS.Remove s k).1 cs = (run s cs).map (fun x => ((memFS.Remove x.1 k).1, x.2))) ∧
    (∀ (t1 t2 : Time) (i : Bool) (a : List (List Byte)) (p : List Byte)
      (bufs : List (List Byte)),
      s.files.GetStringKey k = none → (∀ b ∈ bufs, b ≠ []) →
      (a.flatten ++ p).length < bufs.length →
      ∃ w s1 s1',
        memFS.Create s k t1 i = (s1, some w, none) ∧
        writeAll s1 w a = some s1' ∧
        (∀ s2 r, memFS.Open s1' k t2 = some (s2, some r, none) →
          ∃ s3 s4,
            File.Write (memFS.Remove s2 k).1 w p = some (s3, p.length, none) ∧
            File.content s3 w = some (a.flatten ++ p) ∧
            readUntilEOF s3 r bufs = some (s4, a.flatten ++ p, true)) ∧
        (i = false → ∃ s2 r, memFS.Open s1' k t2 = some (s2, some r, none))) := by
  refine ⟨rfl, rfl, fun h => ?_, ?_, ?_⟩
  · cases h <;> exact ⟨rfl, rfl⟩
  · intro cs hcs
    have h1 := run_with_files cs s (s.files.Del k) hcs
    simp only [memFS.Remove]
    rw [h1]
    cases hr : run s cs with
    | none => rfl
    | some x =>
      obtain ⟨s', rs⟩ := x
      have hf := run_files_of_onHandle cs s s' rs hcs hr
      simp only [Option.map_some', hf]
  · intro t1 t2 i a p bufs habs hne hlen
    obtain ⟨s1, hc1, hfi1, hrd1, hlen1, hnew1, _⟩ := memFS.Create_absent_spec s k t1 i habs
    obtain ⟨s1', hw1, hfi1', hrd1', hlen1', hf1', _⟩ :=
      writeAll_memFile_spec a s1 s.memFiles.length _ hnew1
    have hfiles : s1'.files = s.files.Set k s.memFiles.length i := by rw [hfi1', hfi1]
    refine ⟨_, s1, s1', hc1, hw1, ?_, ?_⟩
    · intro s2 r ho
      obtain ⟨f, mf, hk, _, _, _⟩ := memFS.Open_ok_inv ho
      have hfL : f = s.memFiles.length := by
        rw [hfiles] at hk
        exact HashMap.GetStringKey_Set_some hk
      subst hfL
      obtain ⟨hr, hfi2, hlen2, hf2, hne2, hq2, hrl2, _⟩ := memFS.Open_ok_spec ho hk hf1'
      subst hr
      have hf2' : (memFS.Remove s2 k).1.memFiles[s.memFiles.length]? = _ := hf2
      have hw := memFile.Write_eq (memFS.Remove s2 k).1 s.memFiles.length p _ hf2'
      obtain ⟨s3, hs3, hw3⟩ : ∃ s3, memFile.Write (memFS.Remove s2 k).1 s.memFiles.length p =
          some (s3, p.length, none) ∧ memFile.Write (memFS.Remove s2 k).1 s.memFiles.length p =
          some (s3, p.length, none) := ⟨_, hw, hw⟩
      rw [hw] at hs3
      simp only [Option.some.injEq, Prod.mk.injEq, and_true] at hs3
      have hf3 : s3.memFiles[s.memFiles.length]? = some
          { name := k, r := [] ++ a.flatten ++ p,
            memReader := { memFile := s.memFiles.length, n := 0 }, rt := t2, wt := t1 } := by
        rw [← hs3]
        exact List.getElem?_set_self (getElem?_lt hf2')
      have hq3 : s3.memReaders[s1'.memReaders.length]? =
          some { memFile := s.memFiles.length, n := ((0 : Nat) : Int) } := by
        rw [← hs3]
        exact hq2
      obtain ⟨s4, h4⟩ := readUntilEOF_memReader bufs s3 s1'.memReaders.length
        s.memFiles.length 0 _ hq3 hf3 (Nat.zero_le _) hne (by simpa using hlen)
      refine ⟨s3, s4, hw3, ?_, ?_⟩
      · simp [File.content, File.reader, hf3, memFile.Bytes]
      · simpa using h4
    · intro hi
      subst hi
      have hidx : s1'.files.GetStringKey k = some s.memFiles.length := by
        rw [hfiles]
        exact HashMap.GetStringKey_Set_shown _ _ _
      exact ⟨_, _, memFS.Open_of_present s1' k t2 _ _ hidx hf1'⟩

/-- C7 on the empty store, with the `Create` outside any resize: `Open` returns a
reader; "ab" is written before `Open`, "c" after `Remove`, and the reader
delivers "abc". -/
theorem C7_handles_outlive_remove_witness :
    (NewMemFs.files.GetStringKey "k" = none ∧
      (∀ b ∈ [[0, 0], [0, 0], [0], [0]], b ≠ ([] : List Byte)) ∧
      ([[97, 98]].flatten ++ [99]).length < [[0, 0], [0, 0], [0], [0]].length) ∧
    ∃ w s1 s1' r s2 s3 s4,
      memFS.Create NewMemFs "k" 1 false = (s1, some w, none) ∧
      writeAll s1 w [[97, 98]] = some s1' ∧
      memFS.Open s1' "k" 2 = some (s2, some r, none) ∧
      File.Write (memFS.Remove s2 "k").1 w [99] = some (s3, [99].length, none) ∧
      File.content s3 w = some ([[97, 98]].flatten ++ [99]) ∧
      readUntilEOF s3 r [[0, 0], [0, 0], [0], [0]] =
        some (s4, [[97, 98]].flatten ++ [99], true) := by
  refine ⟨⟨by decide, by decide, by decide⟩, ?_⟩
  obtain ⟨w, s1, s1', hc, hw, hcond, hopen⟩ :=
    (C7_handles_outlive_remove NewMemFs "k").2.2.2.2 1 2 false [[97, 98]] [99]
      [[0, 0], [0, 0], [0], [0]] (by decide) (by decide) (by decide)
  obtain ⟨s2, r, ho⟩ := hopen rfl
  obtain ⟨s3, s4, h3, h4, h5⟩ := hcond s2 r ho
  exact ⟨w, s1, s1', r, s2, s3, s4, hc, hw, ho, h3, h4, h5⟩

/-! ## AccessTimes -/

theorem memFile.Write_times {s s' : State} {g : Nat} {p : List Byte} {x : Nat × Option GoError}
    {f : Nat} {mf : memFile} (h : memFile.Write s g p = some (s', x))
    (hf : s.memFiles[f]? = some mf) :
    ∃ mf', s'.memFiles[f]? = some mf' ∧ mf'.wt = mf.wt ∧ mf'.rt = mf.rt := by
  cases hg : s.memFiles[g]? with
  | none => simp [memFile.Write, hg] at h
  | some mg =>
    rw [memFile.Write_eq s g p mg hg] at h
    simp only [Option.some.injEq, Prod.mk.injEq] at h
    obtain ⟨rfl, _⟩ := h
    by_cases hgf : g = f
    · subst hgf
      rw [hg] at hf
      simp only [Option.some.injEq] at hf
      subst hf
      exact ⟨_, List.getElem?_set_self (getElem?_lt hg), rfl, rfl⟩
    · exact ⟨mf, by simp only []; rw [List.getElem?_set_ne hgf]; exact hf, rfl, rfl⟩

theorem File.setN_times (s : State) (h : File) (n : Int) {f : Nat} {mf : fscache.memFile}
    (hf : s.memFiles[f]? = some mf) :
    ∃ mf', (File.setN s h n).memFiles[f]? = some mf' ∧ mf'.wt = mf.wt ∧ mf'.rt = mf.rt := by
  cases h with
  | memReader q => exact ⟨mf, hf, rfl, rfl⟩
  | memFile g =>
    simp only [File.setN]
    by_cases hgf : g = f
    · subst hgf
      rw [List.getElem?_modify_eq, hf]
      exact ⟨_, rfl, rfl, rfl⟩
    · rw [List.getElem?_modify_ne _ _ hgf]
      exact ⟨mf, hf, rfl, rfl⟩

theorem Call.exec_times {s s' : State} {c : Call} {r : Reply} {f : Nat} {mf : memFile}
    (h : Call.exec s c = some (s', r)) (hf : s.memFiles[f]? = some mf) :
    ∃ mf', s'.memFiles[f]? = some mf' ∧ mf'.wt = mf.wt ∧
      mf'.rt = (Call.readsAt s f c).getD mf.rt := by
  cases c with
  | Create key now b =>
    simp only [Call.exec, Option.some.injEq, Prod.mk.injEq] at h
    obtain ⟨rfl, _⟩ := h
    refine ⟨mf, ?_, rfl, rfl⟩
    cases hk : s.files.GetStringKey key with
    | some g =>
      rw [memFS.Create_of_present s key now b g hk]
      exact hf
    | none =>
      rw [memFS.Create_of_absent s key now b hk]
      simp only []
      rw [List.getElem?_append_left (getElem?_lt hf)]
      exact hf
  | Open name now =>
    simp only [Call.exec, Option.map_eq_some'] at h
    obtain ⟨⟨s1, x⟩, ho, he⟩ := h
    simp only [Prod.mk.injEq] at he
    obtain ⟨rfl, _⟩ := he
    cases hk : s.files.GetStringKey name with
    | none =>
      rw [memFS.Open_of_absent s name now hk] at ho
      simp only [Option.some.injEq, Prod.mk.injEq] at ho
      obtain ⟨rfl, _⟩ := ho
      exact ⟨mf, hf, rfl, by simp [Call.readsAt, memFS.file, hk]⟩
    | some g =>
      cases hg : s.memFiles[g]? with
      | none => simp [memFS.Open, memFS.file, hk, hg] at ho
      | some mg =>
        rw [memFS.Open_of_present s name now g mg hk hg] at ho
        simp only [Option.some.injEq, Prod.mk.injEq] at ho
        obtain ⟨rfl, _⟩ := ho
        by_cases hgf : g = f
        · subst hgf
          rw [hg] at hf
          simp only [Option.some.injEq] at hf
          subst hf
          exact ⟨_, List.getElem?_set_self (getElem?_lt hg), rfl,
            by simp [Call.readsAt, memFS.file, hk]⟩
        · refine ⟨mf, ?_, rfl, ?_⟩
          · simp only []
            rw [List.getElem?_set_ne hgf]
            exact hf
          · simp [Call.readsAt, memFS.file, hk, hgf]
  | Remove key =>
    simp only [Call.exec, Option.some.injEq, Prod.mk.injEq] at h
    obtain ⟨rfl, _⟩ := h
    exact ⟨mf, hf, rfl, rfl⟩
  | RemoveAll =>
    simp only [Call.exec, Option.some.injEq, Prod.mk.injEq] at h
    obtain ⟨rfl, _⟩ := h
    exact ⟨mf, hf, rfl, rfl⟩
  | Reload =>
    simp only [Call.exec, Option.some.injEq, Prod.mk.injEq] at h
    obtain ⟨rfl, _⟩ := h
    exact ⟨mf, hf, rfl, rfl⟩
  | AccessTimes name =>
    simp only [Call.exec, Option.map_eq_some'] at h
    obtain ⟨x, _, he⟩ := h
    simp only [Prod.mk.injEq] at he
    obtain ⟨rfl, _⟩ := he
    exact ⟨mf, hf, rfl, rfl⟩
  | Write hd p =>
    simp only [Call.exec, Option.map_eq_some'] at h
    obtain ⟨⟨s1, x⟩, hw, he⟩ := h
    simp only [Prod.mk.injEq] at he
    obtain ⟨rfl, _⟩ := he
    cases hd with
    | memFile g => exact memFile.Write_times hw hf
    | memReader q =>
      simp only [File.Write] at hw
      split at hw
      · exact memFile.Write_times hw hf
      · cases hw
  | Read hd p =>
    simp only [Call.exec, Option.map_eq_some'] at h
    obtain ⟨⟨s1, x⟩, hr, he⟩ := h
    simp only [Prod.mk.injEq] at he
    obtain ⟨rfl, _⟩ := he
    simp only [File.Read, memReader.Read] at hr
    split at hr
    · split at hr
      · split at hr
        · simp only [Option.some.injEq, Prod.mk.injEq] at hr
          obtain ⟨rfl, _⟩ := hr
          exact File.setN_times s hd _ hf
        · cases hr
      · cases hr
    · cases hr
  | ReadAt hd p off =>
    simp only [Call.exec, Option.map_eq_some'] at h
    obtain ⟨⟨s1, x⟩, hr, he⟩ := h
    simp only [Prod.mk.injEq] at he
    obtain ⟨rfl, _⟩ := he
    rw [File.ReadAt_frame hr]
    exact ⟨mf, hf, rfl, rfl⟩
  | Close hd =>
    simp only [Call.exec, Option.some.injEq, Prod.mk.injEq] at h
    obtain ⟨rfl, _⟩ := h
    cases hd <;> exact ⟨mf, hf, rfl, rfl⟩
  | Resized =>
    simp only [Call.exec, Option.some.injEq, Prod.mk.injEq] at h
    obtain ⟨rfl, _⟩ := h
    exact ⟨mf, hf, rfl, rfl⟩

theorem run_times (cs : List Call) :
    ∀ (s s' : State) (rs : List Reply) (f : Nat) (mf : memFile), run s cs = some (s', rs) →
      s.memFiles[f]? = some mf →
      ∃ mf', s'.memFiles[f]? = some mf' ∧ mf'.wt = mf.wt ∧ mf'.rt = lastRead s f mf.rt cs := by
  induction cs with
  | nil =>
    intro s s' rs f mf h hf
    simp only [run, Option.some.injEq, Prod.mk.injEq] at h
    rw [← h.1]
    exact ⟨mf, hf, rfl, rfl⟩
  | cons c cs ih =>
    intro s s' rs f mf h hf
    obtain ⟨s1, r, rs', he, hr, _⟩ := run_cons_eq_some h
    obtain ⟨mf1, hf1, hwt1, hrt1⟩ := Call.exec_times he hf
    obtain ⟨mf', hf', hwt', hrt'⟩ := ih s1 s' rs' f mf1 hr hf1
    refine ⟨mf', hf', by rw [hwt', hwt1], ?_⟩
    rw [hrt', hrt1]
    simp only [lastRead, he]

theorem memFS.AccessTimes_of_lookup {s : State} {k : String} {f : Nat} {mf : memFile}
    (hk : s.files.GetStringKey k = some f) (hf : s.memFiles[f]? = some mf) :
    memFS.AccessTimes s k = some (mf.rt, mf.wt, none) := by
  simp [memFS.AccessTimes, memFS.file, hk, hf]

theorem memFS.AccessTimes_of_absent {s : State} {k : String}
    (hk : s.files.GetStringKey k = none) :
    memFS.AccessTimes s k = some (0, 0, some (GoError.New "file has not been read")) := by
  simp [memFS.AccessTimes, memFS.file, hk]

/-- C8, as the claim states it, fails: after `Create("k")` at time 5 and one
`Write`, with no `Open` ever made, `AccessTimes("k")` returns the zero last-read
time and the write-start time 5 with no error. -/
theorem C8_accessTimes_unread_counterexample :
    (run NewMemFs [Call.Create "k" 5 false, Call.Write (File.memFile 0) [1],
        Call.AccessTimes "k"]).map (fun x => x.2) =
      some [Reply.file (some (File.memFile 0)) none, Reply.count 1 none, Reply.times 0 5 none] := by
  decide

/-- C8, amended: in every state reached from the empty store, `AccessTimes(k)`
fails (with the error "file has not been read") when `k` has no entry in the
index, as for a key never created and for a key just removed; when the lookup
finds `k`'s entry it returns that entry's pair (last-read time, last-write-start
time) with no error, whether or not the key was ever read.  For the entry that a
`Create(k)` at time `t` makes, after any sequence of calls, the last-write-start
time is `t` and the last-read time is the clock of the latest `Open` that found
the entry, the zero time if there was none: no `Write`, `Read`, `ReadAt`,
`Close`, no call on another key and no other call changes either time; and
`AccessTimes(k)` returns that pair when its lookup finds the entry, which it
does when the `Create` did not fall in a resize of the index and no `Remove(k)`
or `RemoveAll` was made since. -/
theorem C8_accessTimes (cs : List Call) (s : State) (rs : List Reply) (k : String)
    (hreach : run NewMemFs cs = some (s, rs)) :
    ((∀ v, (k, v) ∉ s.files.entries) →
      memFS.AccessTimes s k = some (0, 0, some (GoError.New "file has not been read"))) ∧
    ((∀ now b, Call.Create k now b ∉ cs) →
      memFS.AccessTimes s k = some (0, 0, some (GoError.New "file has not been read"))) ∧
    memFS.AccessTimes (memFS.Remove s k).1 k =
      some (0, 0, some (GoError.New "file has not been read")) ∧
    (∀ f, s.files.GetStringKey k = some f →
      ∃ mf, s.memFiles[f]? = some mf ∧ memFS.AccessTimes s k = some (mf.rt, mf.wt, none)) ∧
    (∀ (t : Time) (i : Bool) (s1 : State) (w : File) (cs' : List Call) (s2 : State)
      (rs' : List Reply),
      memFS.Create s k t i = (s1, some w, none) → run s1 cs' = some (s2, rs') →
      ∃ f mf, w = File.memFile f ∧ s2.memFiles[f]? = some mf ∧ mf.wt = t ∧
        mf.rt = lastRead s1 f 0 cs' ∧
        (s2.files.GetStringKey k = some f →
          memFS.AccessTimes s2 k = some (lastRead s1 f 0 cs', t, none)) ∧
        (i = false → Call.Remove k ∉ cs' → Call.RemoveAll ∉ cs' →
          memFS.AccessTimes s2 k = some (lastRead s1 f 0 cs', t, none))) := by
  have hwf : s.WF := State.WF_run cs NewMemFs s rs NewMemFs_WF hreach
  refine ⟨?_, ?_, ?_, ?_, ?_⟩
  · intro hk
    exact memFS.AccessTimes_of_absent (HashMap.GetStringKey_of_not_mem hk)
  · intro hc
    apply memFS.AccessTimes_of_absent
    apply HashMap.GetStringKey_of_not_mem
    exact run_no_entry cs NewMemFs s rs k hreach (by simp [NewMemFs, HashMap.empty]) hc
  · exact memFS.AccessTimes_of_absent (HashMap.GetStringKey_Del_self _ _)
  · intro f hk
    have hlt : f < s.memFiles.length := hwf.1 (k, f) (HashMap.GetStringKey_mem hk)
    exact ⟨s.memFiles[f], List.getElem?_eq_getElem hlt,
      memFS.AccessTimes_of_lookup hk (List.getElem?_eq_getElem hlt)⟩
  · intro t i s1 w cs' s2 rs' hc hrun
    obtain ⟨habs, hw, _, _⟩ := memFS.Create_ok_inv hc
    obtain ⟨s1', hc', hfi, _, hlen, hnew, _⟩ := memFS.Create_absent_spec s k t i habs
    rw [hc'] at hc
    simp only [Prod.mk.injEq, Option.some.injEq, and_true] at hc
    obtain ⟨rfl, _⟩ := hc
    obtain ⟨mf, hf, hwt, hrt⟩ := run_times cs' s1' s2 rs' s.memFiles.length _ hrun hnew
    refine ⟨s.memFiles.length, mf, hw, hf, hwt, hrt, ?_, ?_⟩
    · intro hk
      rw [memFS.AccessTimes_of_lookup hk hf, hwt, hrt]
    · intro hi h2 h3
      subst hi
      have hk1 : s1'.files.GetStringKey k = some s.memFiles.length := by
        rw [hfi]
        exact HashMap.GetStringKey_Set_shown _ _ _
      obtain ⟨hk, _⟩ := run_lookup_present cs' s1' s2 rs' k s.memFiles.length hrun hk1
        (by rw [hlen]; exact Nat.lt_succ_self _) h2 h3
      rw [memFS.AccessTimes_of_lookup hk hf, hwt, hrt]

/-- C8 (amended) on the empty store: key "k" is created at time 5, written, opened
at time 7, read, opened again at time 9 and written again; `AccessTimes("k")`
then returns the pair (9, 5) with no error. -/
theorem C8_accessTimes_witness :
    run NewMemFs [] = some (NewMemFs, []) ∧
    memFS.Create NewMemFs "k" 5 false =
      ((memFS.Create NewMemFs "k" 5 false).1, some (File.memFile 0), none) ∧
    lastRead (memFS.Create NewMemFs "k" 5 false).1 0 0
      [Call.Write (File.memFile 0) [1], Call.Open "k" 7, Call.Read (File.memReader 0) [0],
        Call.Close (File.memReader 0), Call.Open "k" 9, Call.Write (File.memFile 0) [2]] = 9 ∧
    ∃ s2 rs',
      run (memFS.Create NewMemFs "k" 5 false).1
        [Call.Write (File.memFile 0) [1], Call.Open "k" 7, Call.Read (File.memReader 0) [0],
        Call.Close (File.memReader 0), Call.Open "k" 9, Call.Write (File.memFile 0) [2]] = some (s2, rs') ∧
      memFS.AccessTimes s2 "k" = some (9, 5, none) := by
  have hc : memFS.Create NewMemFs "k" 5 false =
      ((memFS.Create NewMemFs "k" 5 false).1, some (File.memFile 0), none) := by decide
  have hlast : lastRead (memFS.Create NewMemFs "k" 5 false).1 0 0
      [Call.Write (File.memFile 0) [1], Call.Open "k" 7, Call.Read (File.memReader 0) [0],
        Call.Close (File.memReader 0), Call.Open "k" 9, Call.Write (File.memFile 0) [2]] = 9 := by decide
  have hsome : (run (memFS.Create NewMemFs "k" 5 false).1
      [Call.Write (File.memFile 0) [1], Call.Open "k" 7, Call.Read (File.memReader 0) [0],
        Call.Close (File.memReader 0), Call.Open "k" 9, Call.Write (File.memFile 0) [2]]).isSome = true := by decide
  have hlook : (run (memFS.Create NewMemFs "k" 5 false).1
      [Call.Write (File.memFile 0) [1], Call.Open "k" 7, Call.Read (File.memReader 0) [0],
        Call.Close (File.memReader 0), Call.Open "k" 9, Call.Write (File.memFile 0) [2]]).map (fun x => x.1.files.GetStringKey "k") = some (some 0) := by decide
  obtain ⟨⟨s2, rs'⟩, hrun⟩ := Option.isSome_iff_exists.mp hsome
  rw [hrun] at hlook
  simp only [Option.map_some', Option.some.injEq] at hlook
  obtain ⟨f, mf, hw, _, _, _, hat, _⟩ :=
    (C8_accessTimes [] NewMemFs [] "k" rfl).2.2.2.2 5 false _ _ _ s2 rs' hc hrun
  simp only [Option.some.injEq, File.memFile.injEq] at hw
  subst hw
  refine ⟨rfl, hc, hlast, s2, rs', hrun, ?_⟩
  rw [hat hlook, hlast]

/-! ## Sequential read and offset read -/

theorem bytesReaderRead_spec (d p : List Byte) :
    (bytesReaderRead d p).n = min p.length d.length ∧
    (bytesReaderRead d p).p.take (bytesReaderRead d p).n = d.take (bytesReaderRead d p).n ∧
    (bytesReaderRead d p).p.drop (bytesReaderRead d p).n = p.drop (bytesReaderRead d p).n ∧
    (d ≠ [] → (bytesReaderRead d p).err = none) ∧
    (d = [] → (bytesReaderRead d p).err = some GoError.EOF) := by
  by_cases hd : d = []
  · subst hd
    rw [bytesReaderRead_nil]
    simp
  · rw [bytesReaderRead_ne_nil d p hd]
    have hlen : (d.take (min p.length d.length)).length = min p.length d.length := by
      rw [List.length_take]
      omega
    refine ⟨rfl, ?_, ?_, fun _ => rfl, fun h => absurd h hd⟩
    · rw [List.take_left' hlen]
    · rw [List.drop_left' hlen]

theorem bytesReaderReadAt_zero_spec (d p : List Byte) :
    (bytesReaderReadAt d p 0).n = min p.length d.length ∧
    (bytesReaderReadAt d p 0).p.take (bytesReaderReadAt d p 0).n =
      d.take (bytesReaderReadAt d p 0).n ∧
    (bytesReaderReadAt d p 0).p.drop (bytesReaderReadAt d p 0).n =
      p.drop (bytesReaderReadAt d p 0).n ∧
    (bytesReaderReadAt d p 0).err =
      if d = [] ∨ (bytesReaderReadAt d p 0).n < p.length then some GoError.EOF else none := by
  by_cases hd : d = []
  · subst hd
    simp [bytesReaderReadAt]
  · have hl : ¬ ((d.length : Int) ≤ 0) := by
      have := List.length_pos.mpr hd
      omega
    have hlen : (d.take (min p.length d.length)).length = min p.length d.length := by
      rw [List.length_take]
      omega
    simp only [bytesReaderReadAt, lt_self_iff_false, if_false, hl, Int.toNat_zero, List.drop_zero,
      copy, hd, false_or]
    refine ⟨trivial, ?_, ?_, trivial⟩
    · rw [List.take_left' hlen]
    · rw [List.drop_left' hlen]

theorem File.content_setN (s : State) (h h' : File) (n : Int) :
    File.content (File.setN s h n) h' = File.content s h' := by
  unfold File.content
  by_cases hh : h' = h
  · subst hh
    rw [File.reader_setN_self]
    cases File.reader s h' with
    | none => rfl
    | some mr => exact memFile.Bytes_setN s h' n mr.memFile
  · rw [File.reader_setN_ne s n hh]
    cases File.reader s h' with
    | none => rfl
    | some mr => exact memFile.Bytes_setN s h n mr.memFile

theorem File.pos_content_inv {s : State} {h : File} {pos : Int} {c : List Byte}
    (hpos : File.pos s h = some pos) (hc : File.content s h = some c) :
    ∃ mr, File.reader s h = some mr ∧ mr.n = pos ∧ memFile.Bytes s mr.memFile = some c := by
  unfold File.pos at hpos
  unfold File.content at hc
  cases hr : File.reader s h with
  | none =>
    rw [hr] at hpos
    cases hpos
  | some mr =>
    rw [hr] at hpos hc
    simp only [Option.map_some', Option.some.injEq] at hpos
    exact ⟨mr, rfl, hpos, hc⟩

/-- C9: for a cursor at position `pos` over an entry with committed content `c`
(`pos ≤ len(c)`) and any buffer `p`, `Read(p)` returns `n = min(len(p), len(c) - pos)`,
puts the bytes `c[pos .. pos+n)` in `p[:n]` and leaves the rest of `p` alone; the
error is nil when `pos < len(c)` and `io.EOF` (with `n = 0`) when `pos = len(c)`;
afterwards the cursor is at `pos + n`, and the index, every entry's content and
every other cursor's position are unchanged. -/
theorem C9_sequential_read (s : State) (h : File) (p c : List Byte) (pos : Nat)
    (hpos : File.pos s h = some (pos : Int)) (hc : File.content s h = some c)
    (hle : pos ≤ c.length) :
    ∃ s' res, File.Read s h p = some (s', res) ∧
      res.n = min p.length (c.length - pos) ∧
      res.p.take res.n = (c.drop pos).take res.n ∧
      res.p.drop res.n = p.drop res.n ∧
      (pos < c.length → res.err = none) ∧
      (pos = c.length → res.n = 0 ∧ res.err = some GoError.EOF) ∧
      File.pos s' h = some (((pos + res.n : Nat)) : Int) ∧
      (∀ h', h' ≠ h → File.pos s' h' = File.pos s h') ∧
      (∀ f, memFile.Bytes s' f = memFile.Bytes s f) ∧
      (∀ h', File.content s' h' = File.content s h') ∧
      s'.files = s.files := by
  obtain ⟨mr, hr, hn, hb⟩ := File.pos_content_inv hpos hc
  obtain ⟨h1, h2, h3, h4, h5⟩ := bytesReaderRead_spec (c.drop pos) p
  refine ⟨_, _, File.Read_eq s h p mr c pos hr hb hn hle, ?_, h2, h3, ?_, ?_, ?_, ?_, ?_, ?_, ?_⟩
  · rw [h1, List.length_drop]
  · intro hlt
    apply h4
    intro hnil
    have := congrArg List.length hnil
    simp only [List.length_drop, List.length_nil] at this
    omega
  · intro heq
    have hnil : c.drop pos = [] := List.drop_eq_nil_of_le (by omega)
    refine ⟨?_, h5 hnil⟩
    rw [h1, hnil]
    simp
  · unfold File.pos
    rw [File.reader_setN_self, hr]
    rfl
  · intro h' hne
    unfold File.pos
    rw [File.reader_setN_ne s _ hne]
  · intro f
    exact memFile.Bytes_setN s h _ f
  · intro h'
    exact File.content_setN s h h' _
  · exact File.setN_files s h _

/-- C9 on a reader at position 1 over the content "abc" with a buffer of 5 bytes. -/
theorem C9_sequential_read_witness :
    (File.pos
        ({ files := ⟨[("k", 0)], []⟩,
           memFiles := [{ name := "k", r := [97, 98, 99], memReader := { memFile := 0, n := 0 },
                          rt := 2, wt := 1 }],
           memReaders := [{ memFile := 0, n := 1 }] } : State)
        (File.memReader 0) = some ((1 : Nat) : Int) ∧
     File.content
        ({ files := ⟨[("k", 0)], []⟩,
           memFiles := [{ name := "k", r := [97, 98, 99], memReader := { memFile := 0, n := 0 },
                          rt := 2, wt := 1 }],
           memReaders := [{ memFile := 0, n := 1 }] } : State)
        (File.memReader 0) = some [97, 98, 99] ∧
     1 ≤ [97, 98, 99].length) ∧
    ∃ s' res,
      File.Read
        ({ files := ⟨[("k", 0)], []⟩,
           memFiles := [{ name := "k", r := [97, 98, 99], memReader := { memFile := 0, n := 0 },
                          rt := 2, wt := 1 }],
           memReaders := [{ memFile := 0, n := 1 }] } : State)
        (File.memReader 0) [0, 0, 0, 0, 0] = some (s', res) ∧
      res.n = 2 ∧ res.p = [98, 99, 0, 0, 0] ∧ res.err = none ∧
      File.pos s' (File.memReader 0) = some 3 := by
  refine ⟨⟨by decide, by decide, by decide⟩, ?_⟩
  obtain ⟨s', res, hr, hn, ht, hd, he, _, hp, _⟩ :=
    C9_sequential_read
        ({ files := ⟨[("k", 0)], []⟩,
           memFiles := [{ name := "k", r := [97, 98, 99], memReader := { memFile := 0, n := 0 },
                          rt := 2, wt := 1 }],
           memReaders := [{ memFile := 0, n := 1 }] } : State)
        (File.memReader 0) [0, 0, 0, 0, 0] [97, 98, 99] 1 (by decide) (by decide) (by decide)
  have hn2 : res.n = 2 := by rw [hn]; decide
  refine ⟨s', res, hr, hn2, ?_, he (by decide), ?_⟩
  · rw [← List.take_append_drop res.n res.p, ht, hd, hn2]
    decide
  · rw [hp, hn2]
    rfl

/-- C10: for a handle whose entry has committed content `c`, any offset `off`
with `0 ≤ off ≤ len(c)` and any buffer `p`, `ReadAt(p, off)` returns
`n = min(len(p), len(c) - off)`, puts the bytes `c[off .. off+n)` in `p[:n]` and
leaves the rest of `p` alone, whatever the position of the cursor is; the error is
`io.EOF` when `off = len(c)` or `n < len(p)` and nil otherwise; and the state,
the position of the cursor included, is unchanged, so that a `Read` after it
returns what it returns without it. -/
theorem C10_offset_read (s : State) (h : File) (p c : List Byte) (off : Nat)
    (hc : File.content s h = some c) (hoff : off ≤ c.length) :
    ∃ res, File.ReadAt s h p (off : Int) = some (s, res) ∧
      res.n = min p.length (c.length - off) ∧
      res.p.take res.n = (c.drop off).take res.n ∧
      res.p.drop res.n = p.drop res.n ∧
      (res.err = if off = c.length ∨ res.n < p.length then some GoError.EOF else none) ∧
      ∀ (s' : State) (p' : List Byte),
        (File.ReadAt s h p (off : Int)).map (fun x => x.1) = some s' →
        File.pos s' h = File.pos s h ∧ File.Read s' h p' = File.Read s h p' := by
  unfold File.content at hc
  cases hr : File.reader s h with
  | none =>
    rw [hr] at hc
    cases hc
  | some mr =>
    rw [hr] at hc
    simp only [Option.some_bind] at hc
    obtain ⟨h1, h2, h3, h4⟩ := bytesReaderReadAt_zero_spec (c.drop off) p
    have hguard : ¬ ((c.length : Int) < (off : Int)) := by omega
    have hcall : File.ReadAt s h p (off : Int) = some (s, bytesReaderReadAt (c.drop off) p 0) := by
      simp only [File.ReadAt, memReader.ReadAt, hr, hc, hguard, if_false,
        sliceFrom_natCast c off hoff]
    refine ⟨_, hcall, ?_, h2, h3, ?_, ?_⟩
    · rw [h1, List.length_drop]
    · rw [h4]
      have hiff : c.drop off = [] ↔ off = c.length := by
        rw [List.drop_eq_nil_iff]
        omega
      simp only [hiff]
    · intro s' p' hs'
      rw [hcall] at hs'
      simp only [Option.map_some', Option.some.injEq] at hs'
      subst hs'
      exact ⟨rfl, rfl⟩

/-- C10 on a reader at position 3 over the content "abc", reading 2 bytes at offset 1. -/
theorem C10_offset_read_witness :
    (File.content
        ({ files := ⟨[("k", 0)], []⟩,
           memFiles := [{ name := "k", r := [97, 98, 99], memReader := { memFile := 0, n := 0 },
                          rt := 2, wt := 1 }],
           memReaders := [{ memFile := 0, n := 3 }] } : State)
        (File.memReader 0) = some [97, 98, 99] ∧
     1 ≤ [97, 98, 99].length) ∧
    ∃ res,
      File.ReadAt
        ({ files := ⟨[("k", 0)], []⟩,
           memFiles := [{ name := "k", r := [97, 98, 99], memReader := { memFile := 0, n := 0 },
                          rt := 2, wt := 1 }],
           memReaders := [{ memFile := 0, n := 3 }] } : State)
        (File.memReader 0) [0, 0] ((1 : Nat) : Int) =
      some
       (({ files := ⟨[("k", 0)], []⟩,
           memFiles := [{ name := "k", r := [97, 98, 99], memReader := { memFile := 0, n := 0 },
                          rt := 2, wt := 1 }],
           memReaders := [{ memFile := 0, n := 3 }] } : State),
        res) ∧
      res.n = min [0, 0].length ([97, 98, 99].length - 1) ∧
      res.p.take res.n = (List.drop 1 [97, 98, 99]).take res.n := by
  refine ⟨⟨by decide, by decide⟩, ?_⟩
  obtain ⟨res, hr, hn, ht, _⟩ :=
    C10_offset_read
        ({ files := ⟨[("k", 0)], []⟩,
           memFiles := [{ name := "k", r := [97, 98, 99], memReader := { memFile := 0, n := 0 },
                          rt := 2, wt := 1 }],
           memReaders := [{ memFile := 0, n := 3 }] } : State)
        (File.memReader 0) [0, 0] [97, 98, 99] 1 (by decide) (by decide)
  exact ⟨res, hr, hn, ht⟩

/-! ## Offset read outside the content -/

/-- C11: for a handle whose entry has committed content `c` and every offset
`off > len(c)`, `ReadAt(p, off)` returns count 0 and the error `io.EOF`, leaves
the buffer alone, and leaves the whole state unchanged, in particular the
content and length of the entry. -/
theorem C11_offset_read_past_end (s : State) (h : File) (p c : List Byte) (off : Int)
    (hc : File.content s h = some c) (hoff : (c.length : Int) < off) :
    File.ReadAt s h p off = some (s, { n := 0, err := some GoError.EOF, p := p }) ∧
    ∀ s', (File.ReadAt s h p off).map (fun x => x.1) = some s' →
      File.content s' h = some c ∧ (File.content s' h).map List.length = some c.length := by
  unfold File.content at hc
  cases hr : File.reader s h with
  | none =>
    rw [hr] at hc
    cases hc
  | some mr =>
    rw [hr] at hc
    simp only [Option.some_bind] at hc
    have hcall : File.ReadAt s h p off = some (s, { n := 0, err := some GoError.EOF, p := p }) := by
      simp only [File.ReadAt, memReader.ReadAt, hr, hc, hoff, if_true]
    refine ⟨hcall, ?_⟩
    intro s' hs'
    rw [hcall] at hs'
    simp only [Option.map_some', Option.some.injEq] at hs'
    subst hs'
    simp [File.content, hr, hc]

/-- C11 on a reader over the content "abc", at offset 7. -/
theorem C11_offset_read_past_end_witness :
    (File.content
        ({ files := ⟨[("k", 0)], []⟩,
           memFiles := [{ name := "k", r := [97, 98, 99], memReader := { memFile := 0, n := 0 },
                          rt := 2, wt := 1 }],
           memReaders := [{ memFile := 0, n := 0 }] } : State)
        (File.memReader 0) = some [97, 98, 99] ∧
     (([97, 98, 99] : List Byte).length : Int) < 7) ∧
    File.ReadAt
        ({ files := ⟨[("k", 0)], []⟩,
           memFiles := [{ name := "k", r := [97, 98, 99], memReader := { memFile := 0, n := 0 },
                          rt := 2, wt := 1 }],
           memReaders := [{ memFile := 0, n := 0 }] } : State)
        (File.memReader 0) [0, 0] 7 =
      some
       (({ files := ⟨[("k", 0)], []⟩,
           memFiles := [{ name := "k", r := [97, 98, 99], memReader := { memFile := 0, n := 0 },
                          rt := 2, wt := 1 }],
           memReaders := [{ memFile := 0, n := 0 }] } : State),
        { n := 0, err := some GoError.EOF, p := [0, 0] }) :=
  ⟨⟨by decide, by decide⟩,
   (C11_offset_read_past_end _ (File.memReader 0) [0, 0] [97, 98, 99] 7 (by decide) (by decide)).1⟩

/-- C20: for a handle whose entry has content `c` and any buffer `p`,
`ReadAt(p, off)` returns normally for every offset `off ≥ 0` (the slice
`data[off:]` is taken only when `off ≤ len(c)`), and for every `off < 0` the guard
`len(data) < off` is false, the slice `data[off:]` is out of range and the call
panics: it returns nothing, not even an error. -/
theorem C20_offset_read_faults_iff_negative (s : State) (h : File) (p c : List Byte) (off : Int)
    (hc : File.content s h = some c) :
    (0 ≤ off → ∃ res, File.ReadAt s h p off = some (s, res)) ∧
    (0 ≤ off → ¬ ((c.length : Int) < off) → sliceFrom c off = some (c.drop off.toNat)) ∧
    (off < 0 → ¬ ((c.length : Int) < off) ∧ sliceFrom c off = none ∧
      File.ReadAt s h p off = none) := by
  unfold File.content at hc
  cases hr : File.reader s h with
  | none =>
    rw [hr] at hc
    cases hc
  | some mr =>
    rw [hr] at hc
    simp only [Option.some_bind] at hc
    refine ⟨?_, ?_, ?_⟩
    · intro h0
      by_cases hg : (c.length : Int) < off
      · exact ⟨{ n := 0, err := some GoError.EOF, p := p },
          by simp only [File.ReadAt, memReader.ReadAt, hr, hc, hg, if_true]⟩
      · have hs : sliceFrom c off = some (c.drop off.toNat) := by
          unfold sliceFrom
          rw [if_pos ⟨h0, by omega⟩]
        exact ⟨bytesReaderReadAt (c.drop off.toNat) p 0,
          by simp only [File.ReadAt, memReader.ReadAt, hr, hc, hg, if_false, hs]⟩
    · intro h0 hg
      unfold sliceFrom
      rw [if_pos ⟨h0, by omega⟩]
    · intro hneg
      have hg : ¬ ((c.length : Int) < off) := by omega
      have hs : sliceFrom c off = none := by
        unfold sliceFrom
        rw [if_neg (by omega)]
      exact ⟨hg, hs, by simp only [File.ReadAt, memReader.ReadAt, hr, hc, hg, if_false, hs]⟩

/-- C20 on a reader over the content "abc", at offset -1: the call panics. -/
theorem C20_offset_read_faults_iff_negative_witness :
    (File.content
        ({ files := ⟨[("k", 0)], []⟩,
           memFiles := [{ name := "k", r := [97, 98, 99], memReader := { memFile := 0, n := 0 },
                          rt := 2, wt := 1 }],
           memReaders := [{ memFile := 0, n := 0 }] } : State)
        (File.memReader 0) = some [97, 98, 99] ∧ (-1 : Int) < 0) ∧
    File.ReadAt
        ({ files := ⟨[("k", 0)], []⟩,
           memFiles := [{ name := "k", r := [97, 98, 99], memReader := { memFile := 0, n := 0 },
                          rt := 2, wt := 1 }],
           memReaders := [{ memFile := 0, n := 0 }] } : State)
        (File.memReader 0) [0, 0] (-1) = none :=
  ⟨⟨by decide, by decide⟩,
   ((C20_offset_read_faults_iff_negative _ (File.memReader 0) [0, 0] [97, 98, 99] (-1)
      (by decide)).2.2 (by decide)).2.2⟩

/-! ## Write, Close, and Write after Close -/

theorem memFile.Bytes_inv {s : State} {f : Nat} {c : List Byte}
    (h : memFile.Bytes s f = some c) : ∃ mf, s.memFiles[f]? = some mf ∧ mf.r = c := by
  unfold memFile.Bytes at h
  cases hf : s.memFiles[f]? with
  | none =>
    rw [hf] at h
    cases h
  | some mf =>
    rw [hf] at h
    simp only [Option.map_some', Option.some.injEq] at h
    exact ⟨mf, rfl, h⟩

theorem memFile.Write_spec_obj (s : State) (f : Nat) (p c : List Byte)
    (hc : memFile.Bytes s f = some c) :
    ∃ s', memFile.Write s f p = some (s', p.length, none) ∧
      memFile.Bytes s' f = some (c ++ p) ∧
      (∀ g, g ≠ f → memFile.Bytes s' g = memFile.Bytes s g) ∧
      s'.files = s.files ∧ s'.memReaders = s.memReaders ∧
      (∀ h', File.reader s' h' = File.reader s h') ∧
      (p = [] → s' = s) := by
  obtain ⟨mf, hf, hr⟩ := memFile.Bytes_inv hc
  have hlt := getElem?_lt hf
  refine ⟨_, memFile.Write_eq s f p mf hf, ?_, ?_, rfl, rfl, ?_, ?_⟩
  · simp [memFile.Bytes, List.getElem?_set_self hlt, hr]
  · intro g hg
    simp [memFile.Bytes, List.getElem?_set_ne (Ne.symm hg)]
  · intro h'
    cases h' with
    | memFile g =>
      simp only [File.reader]
      by_cases hg : f = g
      · subst hg
        rw [List.getElem?_set_self hlt, hf]
        rfl
      · rw [List.getElem?_set_ne hg]
    | memReader q => rfl
  · intro hp
    subst hp
    have : ({ mf with r := mf.r ++ [] } : memFile) = mf := by simp
    rw [this, set_of_getElem?_eq hf]

theorem File.Write_spec (s : State) (h : File) (f : Nat) (p c : List Byte)
    (ht : File.target s h = some f) (hc : memFile.Bytes s f = some c) :
    ∃ s', File.Write s h p = some (s', p.length, none) ∧
      memFile.Bytes s' f = some (c ++ p) ∧
      (∀ g, g ≠ f → memFile.Bytes s' g = memFile.Bytes s g) ∧
      s'.files = s.files ∧ s'.memReaders = s.memReaders ∧
      (∀ h', File.reader s' h' = File.reader s h') ∧
      (p = [] → s' = s) := by
  cases h with
  | memFile g =>
    simp only [File.target, Option.some.injEq] at ht
    subst ht
    exact memFile.Write_spec_obj s g p c hc
  | memReader q =>
    simp only [File.target, Option.map_eq_some'] at ht
    obtain ⟨mr, hq, hm⟩ := ht
    subst hm
    simp only [File.Write, hq]
    exact memFile.Write_spec_obj s mr.memFile p c hc

/-- C14: `Close` on a writer handle or on a reader returns no error and leaves
the whole state unchanged (index, every entry's content, every cursor's
position), so every `Read` and `ReadAt` after it, and every sequence of calls
after it, returns what it returns without the `Close`. -/
theorem C14_close_changes_nothing (s : State) (h : File) :
    File.Close s h = (s, none) ∧
    (File.Close s h).1.files = s.files ∧
    (∀ h', File.content (File.Close s h).1 h' = File.content s h' ∧
      File.pos (File.Close s h).1 h' = File.pos s h') ∧
    (∀ h' p, File.Read (File.Close s h).1 h' p = File.Read s h' p) ∧
    (∀ h' p off, File.ReadAt (File.Close s h).1 h' p off = File.ReadAt s h' p off) ∧
    (∀ cs, run s (Call.Close h :: cs) =
      (run s cs).map (fun x => (x.1, Reply.error none :: x.2))) := by
  have hclose : File.Close s h = (s, none) := by cases h <;> rfl
  refine ⟨hclose, ?_, ?_, ?_, ?_, ?_⟩
  · rw [hclose]
  · intro h'
    rw [hclose]
    exact ⟨rfl, rfl⟩
  · intro h' p
    rw [hclose]
  · intro h' p off
    rw [hclose]
  · intro cs
    simp only [run, Call.exec, hclose]
    cases run s cs with
    | none => rfl
    | some x => rfl

/-- C15, as the claim states it, fails: after `Create("k")` and `Close` on the
writer, the content is empty, and a `Write` of one byte on the same writer
returns count 1 with no error and the content becomes that byte. -/
theorem C15_write_after_close_counterexample :
    (run NewMemFs [Call.Create "k" 1 false, Call.Close (File.memFile 0)]).map
        (fun x => memFile.Bytes x.1 0) = some (some []) ∧
    (run NewMemFs [Call.Create "k" 1 false, Call.Close (File.memFile 0),
        Call.Write (File.memFile 0) [97]]).map (fun x => (memFile.Bytes x.1 0, x.2)) =
      some (some [97],
        [Reply.file (some (File.memFile 0)) none, Reply.error none, Reply.count 1 none]) := by
  decide

/-- C15, amended: `Close` on the writer handle does not stop appends: for an
entry with content `c`, a `Write(p)` on the writer handle issued after `Close`
on that handle returns what it returns without the `Close`, namely count
`len(p)` and no error, and leaves the content equal to `c ++ p`. -/
theorem C15_write_after_close (s : State) (f : Nat) (p c : List Byte)
    (hc : memFile.Bytes s f = some c) :
    File.Write (File.Close s (File.memFile f)).1 (File.memFile f) p =
      File.Write s (File.memFile f) p ∧
    ∃ s', File.Write (File.Close s (File.memFile f)).1 (File.memFile f) p =
        some (s', p.length, none) ∧
      memFile.Bytes s' f = some (c ++ p) := by
  obtain ⟨s', hw, hb, _⟩ := File.Write_spec s (File.memFile f) f p c rfl hc
  exact ⟨rfl, s', hw, hb⟩

/-- C15 (amended) on the store holding key "k" with content "a": a `Write` of
"b" after `Close` leaves the content "ab". -/
theorem C15_write_after_close_witness :
    memFile.Bytes
        ({ files := ⟨[("k", 0)], []⟩,
           memFiles := [{ name := "k", r := [97], memReader := { memFile := 0, n := 0 },
                          rt := 0, wt := 1 }],
           memReaders := [] } : State) 0 = some [97] ∧
    ∃ s', File.Write
        (File.Close
          ({ files := ⟨[("k", 0)], []⟩,
             memFiles := [{ name := "k", r := [97], memReader := { memFile := 0, n := 0 },
                            rt := 0, wt := 1 }],
             memReaders := [] } : State) (File.memFile 0)).1 (File.memFile 0) [98] =
        some (s', [98].length, none) ∧
      memFile.Bytes s' 0 = some ([97] ++ [98]) :=
  ⟨by decide, (C15_write_after_close _ 0 [98] [97] (by decide)).2⟩

/-! ## End-of-data is provisional -/

theorem File.Read_spec (s : State) (h : File) (p : List Byte) (mr : fscache.memReader)
    (c : List Byte) (m : Nat)
    (hr : File.reader s h = some mr) (hb : memFile.Bytes s mr.memFile = some c)
    (hn : mr.n = (m : Int)) (hm : m ≤ c.length) :
    ∃ s', File.Read s h p = some (s', bytesReaderRead (c.drop m) p) ∧
      File.reader s' h =
        some { mr with n := ((m + (bytesReaderRead (c.drop m) p).n : Nat) : Int) } ∧
      (∀ f, memFile.Bytes s' f = memFile.Bytes s f) ∧
      (∀ h', h' ≠ h → File.reader s' h' = File.reader s h') ∧
      s'.files = s.files := by
  refine ⟨_, File.Read_eq s h p mr c m hr hb hn hm, ?_, ?_, ?_, ?_⟩
  · rw [File.reader_setN_self, hr]
    rfl
  · intro f
    exact memFile.Bytes_setN s h _ f
  · intro h' hne
    exact File.reader_setN_ne s _ hne
  · exact File.setN_files s h _

theorem File.ReadAt_eq (s : State) (h : File) (p : List Byte) (mr : fscache.memReader)
    (c : List Byte) (off : Nat)
    (hr : File.reader s h = some mr) (hb : memFile.Bytes s mr.memFile = some c)
    (hoff : off ≤ c.length) :
    File.ReadAt s h p (off : Int) = some (s, bytesReaderReadAt (c.drop off) p 0) := by
  have hguard : ¬ ((c.length : Int) < (off : Int)) := by omega
  simp only [File.ReadAt, memReader.ReadAt, hr, hb, hguard, if_false,
    sliceFrom_natCast c off hoff]

theorem File.ReadAt_past (s : State) (h : File) (p : List Byte) (mr : fscache.memReader)
    (c : List Byte) (off : Int)
    (hr : File.reader s h = some mr) (hb : memFile.Bytes s mr.memFile = some c)
    (hoff : (c.length : Int) < off) :
    File.ReadAt s h p off = some (s, { n := 0, err := some GoError.EOF, p := p }) := by
  simp only [File.ReadAt, memReader.ReadAt, hr, hb, hoff, if_true]

theorem bytesReaderRead_fits (d p : List Byte) (hd : d ≠ []) (hp : d.length ≤ p.length) :
    bytesReaderRead d p = { n := d.length, err := none, p := d ++ p.drop d.length } := by
  rw [bytesReaderRead_ne_nil d p hd, Nat.min_eq_right hp, List.take_length]

/-- C12: for non-empty `a` and `b` on a store where the lookup of `k` finds
nothing: after `Create(k)` and `Write(a)`, for every reader `r` that `Open(k)`
returns, a `Read` on `r` with a buffer of at least `len(a) + len(b)` bytes
returns exactly `a` (so a count in `[len(a), len(a)+len(b))`), a second `Read`
returns count 0 and `io.EOF`, and after `Write(b)` a further `Read` on `r` returns
exactly `b`; and a `ReadAt` at an offset in `[len(a), len(a)+len(b))`, which
reports count 0 and `io.EOF` before `Write(b)`, returns the bytes of `a ++ b`
from that offset after it.  `Open(k)` does return a reader when the `Create` did
not fall in a resize of the index. -/
theorem C12_eof_is_provisional (s : State) (k : String) (t1 t2 : Time) (i : Bool)
    (a b p p2 p3 : List Byte) (habs : s.files.GetStringKey k = none)
    (ha : a ≠ []) (hb : b ≠ []) (hp : a.length + b.length ≤ p.length)
    (hp3 : b.length ≤ p3.length) :
    ∃ w s1 s2,
      memFS.Create s k t1 i = (s1, some w, none) ∧
      File.Write s1 w a = some (s2, a.length, none) ∧
      (∀ s3 r, memFS.Open s2 k t2 = some (s3, some r, none) →
        ∃ s4 s5 s6 s7,
          File.Read s3 r p =
            some (s4, { n := a.length, err := none, p := a ++ p.drop a.length }) ∧
          a.length < a.length + b.length ∧
          File.Read s4 r p2 = some (s5, { n := 0, err := some GoError.EOF, p := p2 }) ∧
          File.Write s5 w b = some (s6, b.length, none) ∧
          File.Read s6 r p3 =
            some (s7, { n := b.length, err := none, p := b ++ p3.drop b.length }) ∧
          ∀ (off : Nat) (q : List Byte), a.length ≤ off → off < a.length + b.length → q ≠ [] →
            File.ReadAt s5 r q (off : Int) =
              some (s5, { n := 0, err := some GoError.EOF, p := q }) ∧
            ∃ res, File.ReadAt s6 r q (off : Int) = some (s6, res) ∧
              res.n = min q.length (a.length + b.length - off) ∧ 0 < res.n ∧
              res.p.take res.n = ((a ++ b).drop off).take res.n) ∧
      (i = false → ∃ s3 r, memFS.Open s2 k t2 = some (s3, some r, none)) := by
  have hbl : 0 < b.length := List.length_pos.mpr hb
  obtain ⟨s1, hc1, hfi1, hrd1, hlen1, hnew1, _⟩ := memFS.Create_absent_spec s k t1 i habs
  have hb1 : memFile.Bytes s1 s.memFiles.length = some [] := by
    simp [memFile.Bytes, hnew1]
  obtain ⟨s2, hw2, hb2, _, hfi2, hrd2, _, _⟩ :=
    File.Write_spec s1 (File.memFile s.memFiles.length) s.memFiles.length a [] rfl hb1
  obtain ⟨mf2, hmf2, hr2⟩ := memFile.Bytes_inv hb2
  have hfiles : s2.files = s.files.Set k s.memFiles.length i := by rw [hfi2, hfi1]
  refine ⟨_, s1, s2, hc1, hw2, ?_, ?_⟩
  · intro s3 r ho
    obtain ⟨f, mf, hk, _, _, _⟩ := memFS.Open_ok_inv ho
    have hfL : f = s.memFiles.length := by
      rw [hfiles] at hk
      exact HashMap.GetStringKey_Set_some hk
    subst hfL
    obtain ⟨hr, hfi3, hlen3, hf3, _, hq3, _, _⟩ := memFS.Open_ok_spec ho hk hmf2
    subst hr
    have hr3 : File.reader s3 (File.memReader s2.memReaders.length) =
        some { memFile := s.memFiles.length, n := 0 } := hq3
    have hb3 : memFile.Bytes s3 s.memFiles.length = some a := by
      simp [memFile.Bytes, hf3, hr2]
    obtain ⟨s4, hrd4, hr4, hb4, _, _⟩ :=
      File.Read_spec s3 (File.memReader s2.memReaders.length) p _ a 0 hr3 hb3 rfl (Nat.zero_le _)
    rw [List.drop_zero, bytesReaderRead_fits a p ha (by omega)] at hrd4 hr4
    simp only [Nat.zero_add] at hr4
    obtain ⟨s5, hrd5, hr5, hb5, hne5, _⟩ :=
      File.Read_spec s4 (File.memReader s2.memReaders.length) p2 _ a a.length hr4
        (by rw [hb4]; exact hb3) rfl (Nat.le_refl _)
    rw [List.drop_length, bytesReaderRead_nil] at hrd5 hr5
    simp only [Nat.add_zero] at hr5
    have hb5' : memFile.Bytes s5 s.memFiles.length = some a := by
      rw [hb5, hb4]
      exact hb3
    obtain ⟨s6, hw6, hb6, _, _, _, hrs6, _⟩ :=
      File.Write_spec s5 (File.memFile s.memFiles.length) s.memFiles.length b a rfl hb5'
    have hr6 : File.reader s6 (File.memReader s2.memReaders.length) =
        some { memFile := s.memFiles.length, n := (a.length : Int) } := by
      rw [hrs6]
      exact hr5
    obtain ⟨s7, hrd7, _⟩ :=
      File.Read_spec s6 (File.memReader s2.memReaders.length) p3 _ (a ++ b) a.length hr6 hb6 rfl
        (by simp)
    rw [List.drop_left, bytesReaderRead_fits b p3 hb hp3] at hrd7
    refine ⟨s4, s5, s6, s7, hrd4, by omega, hrd5, hw6, hrd7, ?_⟩
    intro off q hoa hob hq
    constructor
    · rcases Nat.lt_or_ge a.length off with hlt | hge
      · exact File.ReadAt_past s5 _ q _ a (off : Int) hr5 hb5' (by omega)
      · have hoe : off = a.length := by omega
        rw [File.ReadAt_eq s5 _ q _ a off hr5 hb5' (by omega), hoe, List.drop_length]
        simp [bytesReaderReadAt]
    · obtain ⟨h1, h2, _, _⟩ := bytesReaderReadAt_zero_spec ((a ++ b).drop off) q
      refine ⟨_, File.ReadAt_eq s6 _ q _ (a ++ b) off hr6 hb6 (by simp; omega), ?_, ?_, h2⟩
      · rw [h1, List.length_drop, List.length_append]
      · rw [h1, List.length_drop, List.length_append]
        have hql : 0 < q.length := List.length_pos.mpr hq
        rw [Nat.lt_min]
        exact ⟨hql, by omega⟩
  · intro hi
    subst hi
    have hidx : s2.files.GetStringKey k = some s.memFiles.length := by
      rw [hfiles]
      exact HashMap.GetStringKey_Set_shown _ _ _
    exact ⟨_, _, memFS.Open_of_present s2 k t2 _ _ hidx hmf2⟩

/-- C12 on the empty store with `a` = "AAA" and `b` = "BBB", buffers of 6 bytes and
the `Create` outside any resize: `Open` returns a reader, which reads "AAA",
then `io.EOF`, then "BBB". -/
theorem C12_eof_is_provisional_witness :
    (NewMemFs.files.GetStringKey "k" = none ∧ ([65, 65, 65] : List Byte) ≠ [] ∧
      ([66, 66, 66] : List Byte) ≠ [] ∧
      ([65, 65, 65] : List Byte).length + ([66, 66, 66] : List Byte).length ≤
        ([0, 0, 0, 0, 0, 0] : List Byte).length ∧
      ([66, 66, 66] : List Byte).length ≤ ([0, 0, 0, 0, 0, 0] : List Byte).length) ∧
    ∃ w s1 s2 r s3 s4 s5 s6 s7,
      memFS.Create NewMemFs "k" 1 false = (s1, some w, none) ∧
      File.Write s1 w [65, 65, 65] = some (s2, 3, none) ∧
      memFS.Open s2 "k" 2 = some (s3, some r, none) ∧
      File.Read s3 r [0, 0, 0, 0, 0, 0] =
        some (s4, { n := 3, err := none, p := [65, 65, 65, 0, 0, 0] }) ∧
      File.Read s4 r [0, 0, 0, 0, 0, 0] =
        some (s5, { n := 0, err := some GoError.EOF, p := [0, 0, 0, 0, 0, 0] }) ∧
      File.Write s5 w [66, 66, 66] = some (s6, 3, none) ∧
      File.Read s6 r [0, 0, 0, 0, 0, 0] =
        some (s7, { n := 3, err := none, p := [66, 66, 66, 0, 0, 0] }) := by
  refine ⟨⟨by decide, by decide, by decide, by decide, by decide⟩, ?_⟩
  obtain ⟨w, s1, s2, h1, h2, hcond, hopen⟩ :=
    C12_eof_is_provisional NewMemFs "k" 1 2 false [65, 65, 65] [66, 66, 66]
      [0, 0, 0, 0, 0, 0] [0, 0, 0, 0, 0, 0] [0, 0, 0, 0, 0, 0] (by decide) (by decide)
      (by decide) (by decide) (by decide)
  obtain ⟨s3, r, h3⟩ := hopen rfl
  obtain ⟨s4, s5, s6, s7, h4, _, h5, h6, h7, _⟩ := hcond s3 r h3
  exact ⟨w, s1, s2, r, s3, s4, s5, s6, s7, h1, h2, h3, h4, h5, h6, h7⟩

/-! ## Content is the concatenation of the appends -/

theorem memFS.Create_Bytes (s : State) (key : String) (now : Time) (b : Bool) (f : Nat) :
    (memFile.Bytes (memFS.Create s key now b).1 f).getD [] = (memFile.Bytes s f).getD [] := by
  cases hk : s.files.GetStringKey key with
  | some g => rw [memFS.Create_of_present s key now b g hk]
  | none =>
    rw [memFS.Create_of_absent s key now b hk]
    simp only [memFile.Bytes]
    rcases Nat.lt_trichotomy f s.memFiles.length with hlt | heq | hgt
    · rw [List.getElem?_append_left hlt]
    · subst heq
      rw [List.getElem?_concat_length, List.getElem?_eq_none (Nat.le_refl _)]
      rfl
    · rw [List.getElem?_eq_none (by simp; omega), List.getElem?_eq_none (by omega)]

theorem memFS.Open_Bytes {s s' : State} {k : String} {t : Time} {x : Option File × Option GoError}
    (h : memFS.Open s k t = some (s', x)) (f : Nat) :
    memFile.Bytes s' f = memFile.Bytes s f := by
  unfold memFS.Open at h
  split at h
  · rename_i g hg
    split at h
    · rename_i mf hmf
      simp only [Option.some.injEq, Prod.mk.injEq] at h
      obtain ⟨rfl, _⟩ := h
      simp only [memFile.Bytes]
      by_cases hfg : g = f
      · subst hfg
        rw [List.getElem?_set_self (getElem?_lt hmf), hmf]
        rfl
      · rw [List.getElem?_set_ne hfg]
    · cases h
  · simp only [Option.some.injEq, Prod.mk.injEq] at h
    obtain ⟨rfl, _⟩ := h
    rfl

theorem File.Read_ok_inv {s s' : State} {h : File} {p : List Byte} {x : ReadResult}
    (hr : File.Read s h p = some (s', x)) :
    ∃ mr c d, File.reader s h = some mr ∧ memFile.Bytes s mr.memFile = some c ∧
      sliceFrom c mr.n = some d ∧ x = bytesReaderRead d p ∧
      s' = File.setN s h (mr.n + ((bytesReaderRead d p).n : Int)) := by
  simp only [File.Read, memReader.Read] at hr
  split at hr
  · rename_i mr hmr
    split at hr
    · rename_i c hc
      split at hr
      · rename_i d hd
        simp only [Option.some.injEq, Prod.mk.injEq] at hr
        exact ⟨mr, c, d, hmr, hc, hd, hr.2.symm, hr.1.symm⟩
      · cases hr
    · cases hr
  · cases hr

theorem File.Read_Bytes {s s' : State} {h : File} {p : List Byte} {x : ReadResult}
    (hr : File.Read s h p = some (s', x)) (f : Nat) :
    memFile.Bytes s' f = memFile.Bytes s f := by
  obtain ⟨mr, c, d, _, _, _, _, hs'⟩ := File.Read_ok_inv hr
  rw [hs']
  exact memFile.Bytes_setN s h _ f

theorem File.Write_ok_inv {s s' : State} {h : File} {p : List Byte} {x : Nat × Option GoError}
    (hw : File.Write s h p = some (s', x)) :
    ∃ f c, File.target s h = some f ∧ memFile.Bytes s f = some c := by
  cases h with
  | memFile g =>
    simp only [File.Write, memFile.Write] at hw
    cases hg : s.memFiles[g]? with
    | none =>
      rw [hg] at hw
      cases hw
    | some mf => exact ⟨g, mf.r, rfl, by simp [memFile.Bytes, hg]⟩
  | memReader q =>
    simp only [File.Write] at hw
    cases hq : s.memReaders[q]? with
    | none =>
      rw [hq] at hw
      cases hw
    | some mr =>
      rw [hq] at hw
      simp only [memFile.Write] at hw
      cases hg : s.memFiles[mr.memFile]? with
      | none =>
        rw [hg] at hw
        cases hw
      | some mf => exact ⟨mr.memFile, mf.r, by simp [File.target, hq], by simp [memFile.Bytes, hg]⟩

theorem Call.exec_Bytes {s s' : State} {c : Call} {r : Reply}
    (h : Call.exec s c = some (s', r)) (f : Nat) :
    (memFile.Bytes s' f).getD [] = (memFile.Bytes s f).getD [] ++ Call.appendTo s f c := by
  cases c with
  | Create key now b =>
    simp only [Call.exec, Option.some.injEq, Prod.mk.injEq] at h
    obtain ⟨rfl, _⟩ := h
    simp only [Call.appendTo, List.append_nil]
    exact memFS.Create_Bytes s key now b f
  | Open name now =>
    simp only [Call.exec, Option.map_eq_some'] at h
    obtain ⟨⟨s1, x⟩, ho, he⟩ := h
    simp only [Prod.mk.injEq] at he
    obtain ⟨rfl, _⟩ := he
    simp only [Call.appendTo, List.append_nil, memFS.Open_Bytes ho f]
  | Remove key =>
    simp only [Call.exec, Option.some.injEq, Prod.mk.injEq] at h
    obtain ⟨rfl, _⟩ := h
    simp [Call.appendTo, memFS.Remove, memFile.Bytes]
  | RemoveAll =>
    simp only [Call.exec, Option.some.injEq, Prod.mk.injEq] at h
    obtain ⟨rfl, _⟩ := h
    simp [Call.appendTo, memFS.RemoveAll, memFile.Bytes]
  | Reload =>
    simp only [Call.exec, Option.some.injEq, Prod.mk.injEq] at h
    obtain ⟨rfl, _⟩ := h
    simp [Call.appendTo, memFS.Reload]
  | AccessTimes name =>
    simp only [Call.exec, Option.map_eq_some'] at h
    obtain ⟨x, _, he⟩ := h
    simp only [Prod.mk.injEq] at he
    obtain ⟨rfl, _⟩ := he
    simp [Call.appendTo]
  | Write hd p =>
    simp only [Call.exec, Option.map_eq_some'] at h
    obtain ⟨⟨s1, x⟩, hw, he⟩ := h
    simp only [Prod.mk.injEq] at he
    obtain ⟨rfl, _⟩ := he
    obtain ⟨g, c, ht, hc⟩ := File.Write_ok_inv hw
    obtain ⟨s2, hw2, hb2, hne2, _⟩ := File.Write_spec s hd g p c ht hc
    rw [hw2] at hw
    simp only [Option.some.injEq, Prod.mk.injEq] at hw
    obtain ⟨rfl, _⟩ := hw
    simp only [Call.appendTo, ht, Option.some.injEq]
    by_cases hgf : g = f
    · subst hgf
      simp [hb2, hc]
    · simp [hgf, hne2 f (Ne.symm hgf)]
  | Read hd p =>
    simp only [Call.exec, Option.map_eq_some'] at h
    obtain ⟨⟨s1, x⟩, hr, he⟩ := h
    simp only [Prod.mk.injEq] at he
    obtain ⟨rfl, _⟩ := he
    simp only [Call.appendTo, List.append_nil, File.Read_Bytes hr f]
  | ReadAt hd p off =>
    simp only [Call.exec, Option.map_eq_some'] at h
    obtain ⟨⟨s1, x⟩, hr, he⟩ := h
    simp only [Prod.mk.injEq] at he
    obtain ⟨rfl, _⟩ := he
    simp only [Call.appendTo, List.append_nil, File.ReadAt_frame hr]
  | Close hd =>
    simp only [Call.exec, Option.some.injEq, Prod.mk.injEq] at h
    obtain ⟨rfl, _⟩ := h
    cases hd <;> simp [Call.appendTo, File.Close, memFile.Close, memReader.Close]
  | Resized =>
    simp only [Call.exec, Option.some.injEq, Prod.mk.injEq] at h
    obtain ⟨rfl, _⟩ := h
    simp [Call.appendTo, memFS.resized, memFile.Bytes]

theorem run_Bytes (cs : List Call) :
    ∀ (s s' : State) (rs : List Reply) (f : Nat), run s cs = some (s', rs) →
      (memFile.Bytes s' f).getD [] = (memFile.Bytes s f).getD [] ++ appended s f cs := by
  induction cs with
  | nil =>
    intro s s' rs f h
    simp only [run, Option.some.injEq, Prod.mk.injEq] at h
    rw [← h.1]
    simp [appended]
  | cons c cs ih =>
    intro s s' rs f h
    obtain ⟨s1, r, rs', he, hr, _⟩ := run_cons_eq_some h
    rw [ih s1 s' rs' f hr, Call.exec_Bytes he f]
    simp only [appended, he, List.append_assoc]

/-- C13: for an entry with content `c` and any byte string `p`, `Write(p)`
through a handle of that entry returns count `len(p)` and no error and leaves
the content equal to `c ++ p`, every other entry's content as it was, and for
empty `p` the whole state as it was; hence after any sequence of calls every
entry's content is its content before followed by the arguments of the `Write`
calls made on it, in call order (from the empty store: exactly those appends),
so the content before is an initial segment of the content after. -/
theorem C13_append (cs : List Call) (s s' : State) (rs : List Reply)
    (hrun : run s cs = some (s', rs)) :
    (∀ (h : File) (f : Nat) (p c : List Byte), File.target s' h = some f →
      memFile.Bytes s' f = some c →
      ∃ s'', File.Write s' h p = some (s'', p.length, none) ∧
        memFile.Bytes s'' f = some (c ++ p) ∧
        (∀ g, g ≠ f → memFile.Bytes s'' g = memFile.Bytes s' g) ∧
        (p = [] → s'' = s')) ∧
    (∀ f, (memFile.Bytes s' f).getD [] = (memFile.Bytes s f).getD [] ++ appended s f cs) ∧
    (∀ f c c', memFile.Bytes s f = some c → memFile.Bytes s' f = some c' →
      c' = c ++ appended s f cs ∧ ∃ t, c' = c ++ t) ∧
    (s = NewMemFs → ∀ f c', memFile.Bytes s' f = some c' → c' = appended NewMemFs f cs) := by
  refine ⟨?_, ?_, ?_, ?_⟩
  · intro h f p c ht hc
    obtain ⟨s'', hw, hb, hne, _, _, _, hnil⟩ := File.Write_spec s' h f p c ht hc
    exact ⟨s'', hw, hb, hne, hnil⟩
  · intro f
    exact run_Bytes cs s s' rs f hrun
  · intro f c c' hc hc'
    have h := run_Bytes cs s s' rs f hrun
    rw [hc, hc'] at h
    simp only [Option.getD_some] at h
    exact ⟨h, _, h⟩
  · intro hs f c' hc'
    have h := run_Bytes cs s s' rs f hrun
    rw [hc', hs] at h
    simpa [memFile.Bytes, NewMemFs] using h

/-- C13 on the calls: create "k", write "ab", open, write "" through the reader
handle, write "c" through the writer: the content is "abc". -/
theorem C13_append_witness :
    run NewMemFs [Call.Create "k" 1 false, Call.Write (File.memFile 0) [97, 98], Call.Open "k" 2,
        Call.Write (File.memReader 0) [], Call.Write (File.memFile 0) [99]] =
      some ({ files := ⟨[("k", 0)], []⟩,
              memFiles := [{ name := "k", r := [97, 98, 99], memReader := { memFile := 0, n := 0 },
                             rt := 2, wt := 1 }],
              memReaders := [{ memFile := 0, n := 0 }] },
            [Reply.file (some (File.memFile 0)) none, Reply.count 2 none,
             Reply.file (some (File.memReader 0)) none, Reply.count 0 none,
             Reply.count 1 none]) ∧
    ([97, 98, 99] : List Byte) =
      appended NewMemFs 0 [Call.Create "k" 1 false, Call.Write (File.memFile 0) [97, 98],
        Call.Open "k" 2, Call.Write (File.memReader 0) [], Call.Write (File.memFile 0) [99]] :=
  ⟨by decide,
   (C13_append [Call.Create "k" 1 false, Call.Write (File.memFile 0) [97, 98], Call.Open "k" 2,
        Call.Write (File.memReader 0) [], Call.Write (File.memFile 0) [99]] NewMemFs
      { files := ⟨[("k", 0)], []⟩,
        memFiles := [{ name := "k", r := [97, 98, 99], memReader := { memFile := 0, n := 0 },
                       rt := 2, wt := 1 }],
        memReaders := [{ memFile := 0, n := 0 }] }
      [Reply.file (some (File.memFile 0)) none, Reply.count 2 none,
       Reply.file (some (File.memReader 0)) none, Reply.count 0 none,
       Reply.count 1 none] (by decide)).2.2.2 rfl 0 [97, 98, 99] (by decide)⟩

/-! ## The cursor bound is invariant -/

theorem sliceFrom_inv {c d : List Byte} {i : Int} (h : sliceFrom c i = some d) :
    0 ≤ i ∧ i ≤ (c.length : Int) ∧ d = c.drop i.toNat := by
  unfold sliceFrom at h
  split at h
  · rename_i hi
    simp only [Option.some.injEq] at h
    exact ⟨hi.1, hi.2, h.symm⟩
  · cases h

theorem bytesReaderRead_n_le (d p : List Byte) : (bytesReaderRead d p).n ≤ d.length := by
  rw [(bytesReaderRead_spec d p).1]
  exact Nat.min_le_right _ _

theorem NewMemFs_Bounded : NewMemFs.Bounded := by
  intro h mr hr
  cases h <;> simp [File.reader, NewMemFs] at hr

theorem State.Bounded_of_same {s s' : State} (hb : s.Bounded)
    (hr : ∀ h, File.reader s' h = File.reader s h)
    (hc : ∀ f c, memFile.Bytes s f = some c →
      ∃ c', memFile.Bytes s' f = some c' ∧ c.length ≤ c'.length) : s'.Bounded := by
  intro h mr hmr
  rw [hr h] at hmr
  obtain ⟨c, hbc, h0, h1⟩ := hb h mr hmr
  obtain ⟨c', hbc', hle⟩ := hc mr.memFile c hbc
  exact ⟨c', hbc', h0, by omega⟩

theorem State.Bounded_Create {s : State} (hb : s.Bounded) (key : String) (now : Time)
    (b : Bool) : (memFS.Create s key now b).1.Bounded := by
  cases hk : s.files.GetStringKey key with
  | some g =>
    rw [memFS.Create_of_present s key now b g hk]
    exact hb
  | none =>
    rw [memFS.Create_of_absent s key now b hk]
    have hkeep : ∀ f c, memFile.Bytes s f = some c →
        memFile.Bytes
          { files := s.files.Set key s.memFiles.length b,
            memFiles := s.memFiles ++
              [{ name := key, r := [], memReader := { memFile := s.memFiles.length, n := 0 },
                 rt := 0, wt := now }],
            memReaders := s.memReaders } f = some c := by
      intro f c hc
      obtain ⟨mf, hmf, hr⟩ := memFile.Bytes_inv hc
      simp only [memFile.Bytes]
      rw [List.getElem?_append_left (getElem?_lt hmf), hmf, ← hr]
      rfl
    intro h mr hmr
    cases h with
    | memReader q =>
      obtain ⟨c, hbc, h0, h1⟩ := hb (File.memReader q) mr hmr
      exact ⟨c, hkeep _ c hbc, h0, h1⟩
    | memFile g =>
      simp only [File.reader] at hmr
      rcases Nat.lt_trichotomy g s.memFiles.length with hlt | heq | hgt
      · rw [List.getElem?_append_left hlt] at hmr
        obtain ⟨c, hbc, h0, h1⟩ := hb (File.memFile g) mr hmr
        exact ⟨c, hkeep _ c hbc, h0, h1⟩
      · subst heq
        rw [List.getElem?_concat_length] at hmr
        simp only [Option.map_some', Option.some.injEq] at hmr
        subst hmr
        refine ⟨[], ?_, le_refl _, le_refl _⟩
        simp only [memFile.Bytes]
        rw [List.getElem?_concat_length]
        rfl
      · rw [List.getElem?_eq_none (by simp; omega)] at hmr
        cases hmr

theorem State.Bounded_Open {s s' : State} {k : String} {t : Time}
    {x : Option File × Option GoError} (hb : s.Bounded)
    (ho : memFS.Open s k t = some (s', x)) : s'.Bounded := by
  have hbytes := memFS.Open_Bytes ho
  unfold memFS.Open at ho
  split at ho
  · rename_i g hg
    split at ho
    · rename_i mf hmf
      simp only [Option.some.injEq, Prod.mk.injEq] at ho
      obtain ⟨hs', _⟩ := ho
      intro h mr hmr
      cases h with
      | memFile g' =>
        have hsame : File.reader s (File.memFile g') = some mr := by
          rw [← hs'] at hmr
          simp only [File.reader] at hmr ⊢
          by_cases hgg : g = g'
          · subst hgg
            rw [List.getElem?_set_self (getElem?_lt hmf)] at hmr
            rw [hmf]
            exact hmr
          · rw [List.getElem?_set_ne hgg] at hmr
            exact hmr
        obtain ⟨c, hbc, h0, h1⟩ := hb _ mr hsame
        exact ⟨c, by rw [hbytes]; exact hbc, h0, h1⟩
      | memReader q =>
        rw [← hs'] at hmr
        simp only [File.reader] at hmr
        rcases Nat.lt_trichotomy q s.memReaders.length with hlt | heq | hgt
        · rw [List.getElem?_append_left hlt] at hmr
          obtain ⟨c, hbc, h0, h1⟩ := hb (File.memReader q) mr hmr
          exact ⟨c, by rw [hbytes]; exact hbc, h0, h1⟩
        · subst heq
          rw [List.getElem?_concat_length] at hmr
          simp only [Option.some.injEq] at hmr
          subst hmr
          refine ⟨mf.r, ?_, le_refl _, by simp⟩
          rw [hbytes]
          simp [memFile.Bytes, hmf]
        · rw [List.getElem?_eq_none (by simp; omega)] at hmr
          cases hmr
    · cases ho
  · simp only [Option.some.injEq, Prod.mk.injEq] at ho
    obtain ⟨rfl, _⟩ := ho
    exact hb

theorem State.Bounded_Write {s s' : State} {h : File} {p : List Byte}
    {x : Nat × Option GoError} (hb : s.Bounded)
    (hw : File.Write s h p = some (s', x)) : s'.Bounded := by
  obtain ⟨g, c, ht, hc⟩ := File.Write_ok_inv hw
  obtain ⟨s2, hw2, hb2, hne2, _, _, hrs2, _⟩ := File.Write_spec s h g p c ht hc
  rw [hw2] at hw
  simp only [Option.some.injEq, Prod.mk.injEq] at hw
  obtain ⟨rfl, _⟩ := hw
  apply State.Bounded_of_same hb hrs2
  intro f c0 hc0
  by_cases hfg : f = g
  · subst hfg
    rw [hc] at hc0
    simp only [Option.some.injEq] at hc0
    subst hc0
    exact ⟨c ++ p, hb2, by simp⟩
  · exact ⟨c0, by rw [hne2 f hfg]; exact hc0, le_refl _⟩

theorem State.Bounded_Read {s s' : State} {h : File} {p : List Byte} {x : ReadResult}
    (hb : s.Bounded) (hr : File.Read s h p = some (s', x)) : s'.Bounded := by
  obtain ⟨mr, c, d, hmr, hc, hd, _, hs'⟩ := File.Read_ok_inv hr
  obtain ⟨h0, h1, hdd⟩ := sliceFrom_inv hd
  have hn := bytesReaderRead_n_le d p
  have hdl : d.length = c.length - mr.n.toNat := by
    rw [hdd, List.length_drop]
  intro h' mr' hmr'
  rw [hs'] at hmr' ⊢
  by_cases hh : h' = h
  · subst hh
    rw [File.reader_setN_self, hmr] at hmr'
    simp only [Option.map_some', Option.some.injEq] at hmr'
    subst hmr'
    refine ⟨c, by rw [memFile.Bytes_setN]; exact hc, ?_, ?_⟩
    · simp only []
      omega
    · simp only []
      omega
  · rw [File.reader_setN_ne s _ hh] at hmr'
    obtain ⟨c', hbc', h0', h1'⟩ := hb h' mr' hmr'
    exact ⟨c', by rw [memFile.Bytes_setN]; exact hbc', h0', h1'⟩

theorem State.Bounded_exec {s s' : State} {c : Call} {r : Reply}
    (hb : s.Bounded) (h : Call.exec s c = some (s', r)) : s'.Bounded := by
  cases c with
  | Create key now b =>
    simp only [Call.exec, Option.some.injEq, Prod.mk.injEq] at h
    obtain ⟨rfl, _⟩ := h
    exact State.Bounded_Create hb key now b
  | Open name now =>
    simp only [Call.exec, Option.map_eq_some'] at h
    obtain ⟨⟨s1, x⟩, ho, he⟩ := h
    simp only [Prod.mk.injEq] at he
    obtain ⟨rfl, _⟩ := he
    exact State.Bounded_Open hb ho
  | Remove key =>
    simp only [Call.exec, Option.some.injEq, Prod.mk.injEq] at h
    obtain ⟨rfl, _⟩ := h
    exact State.Bounded_of_same hb (fun h' => by cases h' <;> rfl)
      (fun f c hc => ⟨c, hc, le_refl _⟩)
  | RemoveAll =>
    simp only [Call.exec, Option.some.injEq, Prod.mk.injEq] at h
    obtain ⟨rfl, _⟩ := h
    exact State.Bounded_of_same hb (fun h' => by cases h' <;> rfl)
      (fun f c hc => ⟨c, hc, le_refl _⟩)
  | Reload =>
    simp only [Call.exec, Option.some.injEq, Prod.mk.injEq] at h
    obtain ⟨rfl, _⟩ := h
    exact hb
  | AccessTimes name =>
    simp only [Call.exec, Option.map_eq_some'] at h
    obtain ⟨x, _, he⟩ := h
    simp only [Prod.mk.injEq] at he
    obtain ⟨rfl, _⟩ := he
    exact hb
  | Write hd p =>
    simp only [Call.exec, Option.map_eq_some'] at h
    obtain ⟨⟨s1, x⟩, ho, he⟩ := h
    simp only [Prod.mk.injEq] at he
    obtain ⟨rfl, _⟩ := he
    exact State.Bounded_Write hb ho
  | Read hd p =>
    simp only [Call.exec, Option.map_eq_some'] at h
    obtain ⟨⟨s1, x⟩, ho, he⟩ := h
    simp only [Prod.mk.injEq] at he
    obtain ⟨rfl, _⟩ := he
    exact State.Bounded_Read hb ho
  | ReadAt hd p off =>
    simp only [Call.exec, Option.map_eq_some'] at h
    obtain ⟨⟨s1, x⟩, ho, he⟩ := h
    simp only [Prod.mk.injEq] at he
    obtain ⟨rfl, _⟩ := he
    rw [File.ReadAt_frame ho]
    exact hb
  | Close hd =>
    simp only [Call.exec, Option.some.injEq, Prod.mk.injEq] at h
    obtain ⟨rfl, _⟩ := h
    cases hd <;> exact hb
  | Resized =>
    simp only [Call.exec, Option.some.injEq, Prod.mk.injEq] at h
    obtain ⟨rfl, _⟩ := h
    exact State.Bounded_of_same hb (fun h' => by cases h' <;> rfl)
      (fun f c hc => ⟨c, hc, le_refl _⟩)

theorem State.Bounded_run (cs : List Call) :
    ∀ (s s' : State) (rs : List Reply), s.Bounded → run s cs = some (s', rs) → s'.Bounded := by
  induction cs with
  | nil =>
    intro s s' rs hb h
    simp only [run, Option.some.injEq, Prod.mk.injEq] at h
    rw [← h.1]
    exact hb
  | cons c cs ih =>
    intro s s' rs hb h
    obtain ⟨s1, r, rs', he, hr, _⟩ := run_cons_eq_some h
    exact ih s1 s' rs' (State.Bounded_exec hb he) hr

/-- C19: in every state reached from the empty store by a sequence of calls
(`Create`, `Open`, `Remove`, `RemoveAll`, `Write`, `Read`, `ReadAt`, `Close`, and
also `Reload` and `AccessTimes`), every cursor, the one embedded in a writer
handle included, points to an allocated entry and its position `n` satisfies
`0 ≤ n ≤ len(content)`; so the slice `Bytes()[n:]` that `Read` takes is in range
and `Read` on any handle the store has handed out returns, without a panic. -/
theorem C19_cursor_bound (cs : List Call) (s : State) (rs : List Reply)
    (hreach : run NewMemFs cs = some (s, rs)) :
    s.Bounded ∧
    (∀ (h : File) (pos : Int), File.pos s h = some pos →
      ∃ c, File.content s h = some c ∧ 0 ≤ pos ∧ pos ≤ (c.length : Int)) ∧
    (∀ (h : File) (mr : fscache.memReader) (p : List Byte), File.reader s h = some mr →
      ∃ c s' res, memFile.Bytes s mr.memFile = some c ∧
        sliceFrom c mr.n = some (c.drop mr.n.toNat) ∧
        File.Read s h p = some (s', res)) := by
  have hb : s.Bounded := State.Bounded_run cs NewMemFs s rs NewMemFs_Bounded hreach
  refine ⟨hb, ?_, ?_⟩
  · intro h pos hpos
    unfold File.pos at hpos
    cases hr : File.reader s h with
    | none =>
      rw [hr] at hpos
      cases hpos
    | some mr =>
      rw [hr] at hpos
      simp only [Option.map_some', Option.some.injEq] at hpos
      obtain ⟨c, hbc, h0, h1⟩ := hb h mr hr
      refine ⟨c, ?_, by omega, by omega⟩
      simp [File.content, hr, hbc]
  · intro h mr p hr
    obtain ⟨c, hbc, h0, h1⟩ := hb h mr hr
    have hs : sliceFrom c mr.n = some (c.drop mr.n.toNat) := by
      unfold sliceFrom
      rw [if_pos ⟨h0, h1⟩]
    refine ⟨c, File.setN s h (mr.n + ((bytesReaderRead (c.drop mr.n.toNat) p).n : Int)),
      bytesReaderRead (c.drop mr.n.toNat) p, hbc, hs, ?_⟩
    simp only [File.Read, memReader.Read, hr, hbc, hs]

/-- C19 on the calls: create "k", write "abc", open, read 2 bytes through the
reader, read 5 bytes through the writer handle: both cursors are in range. -/
theorem C19_cursor_bound_witness :
    run NewMemFs [Call.Create "k" 1 false, Call.Write (File.memFile 0) [97, 98, 99], Call.Open "k" 2,
        Call.Read (File.memReader 0) [0, 0], Call.Read (File.memFile 0) [0, 0, 0, 0, 0]] =
      some ({ files := ⟨[("k", 0)], []⟩,
              memFiles := [{ name := "k", r := [97, 98, 99], memReader := { memFile := 0, n := 3 },
                             rt := 2, wt := 1 }],
              memReaders := [{ memFile := 0, n := 2 }] },
            [Reply.file (some (File.memFile 0)) none, Reply.count 3 none,
             Reply.file (some (File.memReader 0)) none,
             Reply.read { n := 2, err := none, p := [97, 98] },
             Reply.read { n := 3, err := none, p := [97, 98, 99, 0, 0] }]) ∧
    State.Bounded
      { files := ⟨[("k", 0)], []⟩,
        memFiles := [{ name := "k", r := [97, 98, 99], memReader := { memFile := 0, n := 3 },
                       rt := 2, wt := 1 }],
        memReaders := [{ memFile := 0, n := 2 }] } :=
  ⟨by decide,
   (C19_cursor_bound [Call.Create "k" 1 false, Call.Write (File.memFile 0) [97, 98, 99], Call.Open "k" 2,
        Call.Read (File.memReader 0) [0, 0], Call.Read (File.memFile 0) [0, 0, 0, 0, 0]]
      { files := ⟨[("k", 0)], []⟩,
        memFiles := [{ name := "k", r := [97, 98, 99], memReader := { memFile := 0, n := 3 },
                       rt := 2, wt := 1 }],
        memReaders := [{ memFile := 0, n := 2 }] }
      [Reply.file (some (File.memFile 0)) none, Reply.count 3 none,
       Reply.file (some (File.memReader 0)) none,
       Reply.read { n := 2, err := none, p := [97, 98] },
       Reply.read { n := 3, err := none, p := [97, 98, 99, 0, 0] }] (by decide)).1⟩

/-! ## The middleware -/

/-- C16: when the coordinator's `Get(key)` returns an error, whatever handles it
returns with it, the middleware invokes the wrapped handler once, on the real
response writer and the original request, in the world that `Get` left, and
that is all it does: the world it returns is the one the handler returns, so it
has made no call on a read or write handle, no copy and no close, and it has
started no goroutine. -/
theorem C16_bypass {σ η : Type} (c : Cache σ) (h : HttpHandler σ η)
    (ioCopy : Writer σ → ReadCloser σ → σ → σ) (rw : ResponseWriter σ η) (req : Request)
    (s : σ) (e : GoError) (herr : (c.Get req.URL s).2.2.2 = some e) :
    Handler c h ioCopy rw req s = some (h.ServeHTTP rw req (c.Get req.URL s).1, []) := by
  unfold Handler
  rcases hget : c.Get req.URL s with ⟨s1, r, w, err⟩
  rw [hget] at herr
  simp only at herr
  subst herr
  cases r <;> cases w <;> rfl

/-- C16 on a coordinator that fails, a handler that writes "hello", and the
request for "/x": the log holds the `Get`, one handler invocation and the
handler's own write to the real response writer, and nothing else. -/
theorem C16_bypass_witness :
    (Event.failingCache.Get "/x" []).2.2.2 = some (GoError.New "cache unavailable") ∧
    Handler Event.failingCache Event.helloHandler Event.ioCopy Event.responseWriter
        { Method := "GET", URL := "/x", Body := [] } [] =
      some ([Event.Get "/x", Event.ServeHTTP { Method := "GET", URL := "/x", Body := [] },
             Event.Written [104, 101, 108, 108, 111]], []) :=
  ⟨rfl,
   C16_bypass Event.failingCache Event.helloHandler Event.ioCopy Event.responseWriter
     { Method := "GET", URL := "/x", Body := [] } [] (GoError.New "cache unavailable") rfl⟩

theorem ResWrapper.calls_on_store (ops : List RWCall) :
    ∀ (fs : State) (received : List RWCall) (h : File) (f : Nat) (c : List Byte),
      File.target fs h = some f → memFile.Bytes fs f = some c →
      ∃ fs', ResponseWriter.calls
          (ResWrapper.toResponseWriter
            ⟨realResponseWriter, (File.toWriteCloser h).toWriter⟩)
          ops (some ⟨fs, received⟩) =
            some ⟨fs', received ++ ops.filter (fun o => !o.isWrite)⟩ ∧
        memFile.Bytes fs' f = some (c ++ RWCall.body ops) ∧
        (∀ g, g ≠ f → memFile.Bytes fs' g = memFile.Bytes fs g) ∧
        fs'.files = fs.files := by
  induction ops with
  | nil =>
    intro fs received h f c _ hc
    exact ⟨fs, by simp [ResponseWriter.calls], by simpa [RWCall.body] using hc,
      fun _ _ => rfl, rfl⟩
  | cons o ops ih =>
    intro fs received h f c ht hc
    cases o with
    | Header =>
      obtain ⟨fs', h1, h2, h3, h4⟩ := ih fs (received ++ [RWCall.Header]) h f c ht hc
      refine ⟨fs', ?_, by simpa [RWCall.body] using h2, h3, h4⟩
      simp only [ResponseWriter.calls, ResponseWriter.call, ResWrapper.toResponseWriter,
        realResponseWriter, Option.map_some']
      simp only [ResWrapper.toResponseWriter, realResponseWriter] at h1
      rw [h1]
      simp [RWCall.isWrite]
    | WriteHeader code =>
      obtain ⟨fs', h1, h2, h3, h4⟩ := ih fs (received ++ [RWCall.WriteHeader code]) h f c ht hc
      refine ⟨fs', ?_, by simpa [RWCall.body] using h2, h3, h4⟩
      simp only [ResponseWriter.calls, ResponseWriter.call, ResWrapper.toResponseWriter,
        realResponseWriter, Option.map_some']
      simp only [ResWrapper.toResponseWriter, realResponseWriter] at h1
      rw [h1]
      simp [RWCall.isWrite]
    | Write p =>
      obtain ⟨fs2, hw, hb2, hne2, hfi2, hrd2, _, _⟩ := File.Write_spec fs h f p c ht hc
      have ht2 : File.target fs2 h = some f := by
        cases h with
        | memFile g => exact ht
        | memReader q =>
          simp only [File.target] at ht ⊢
          rw [hrd2]
          exact ht
      obtain ⟨fs', h1, h2, h3, h4⟩ := ih fs2 received h f (c ++ p) ht2 hb2
      refine ⟨fs', ?_, by simpa [RWCall.body, List.append_assoc] using h2,
        fun g hg => by rw [h3 g hg, hne2 g hg], by rw [h4, hfi2]⟩
      simp only [ResponseWriter.calls, ResponseWriter.call, ResWrapper.toResponseWriter,
        ResWrapper.Write, File.toWriteCloser, hw]
      simp only [ResWrapper.toResponseWriter, ResWrapper.Write, File.toWriteCloser] at h1
      rw [h1]
      simp [RWCall.isWrite]

/-- C17: `Write(p)` on the adapter `ResWrapper` is the `Write(p)` of the write
handle, result included, and `Header` and `WriteHeader` on the adapter are those
of the real response writer.  On the population path (`Get` returns a read handle
and the write handle `w`, no error) the closure of `Handler` starts one goroutine,
which invokes the wrapped handler once, on that adapter of the real response
writer and `w`, and then closes `w`.  Hence, over the in-memory store, whatever
sequence of calls a handler makes on the writer it is given: the real response
writer receives from the goroutine the header and status calls, in order, and no
body write; the content `c` of the entry of the write handle becomes `c` followed
by the concatenation of the body bytes written; and the other entries and the
index are untouched. -/
theorem C17_body_only_capture {σ η : Type} (rw : ResponseWriter σ η) (w : Writer σ) :
    (∀ p s, ResWrapper.Write ⟨rw, w⟩ p s = w.Write p s) ∧
    (∀ p s, (ResWrapper.toResponseWriter ⟨rw, w⟩).Write p s = w.Write p s) ∧
    (ResWrapper.toResponseWriter ⟨rw, w⟩).Header = rw.Header ∧
    (ResWrapper.toResponseWriter ⟨rw, w⟩).WriteHeader = rw.WriteHeader ∧
    (∀ (ops : List RWCall) (fs : State) (received : List RWCall) (h : File) (f : Nat)
      (c : List Byte), File.target fs h = some f → memFile.Bytes fs f = some c →
      ∃ fs', ResponseWriter.calls
          (ResWrapper.toResponseWriter
            ⟨realResponseWriter, (File.toWriteCloser h).toWriter⟩)
          ops (some ⟨fs, received⟩) =
            some ⟨fs', received ++ ops.filter (fun o => !o.isWrite)⟩ ∧
        memFile.Bytes fs' f = some (c ++ RWCall.body ops) ∧
        (∀ g, g ≠ f → memFile.Bytes fs' g = memFile.Bytes fs g) ∧
        fs'.files = fs.files) ∧
    (∀ (c : Cache σ) (h : HttpHandler σ η) (ioCopy : Writer σ → ReadCloser σ → σ → σ)
      (req : Request) (s s1 : σ) (r : ReadCloser σ) (close : σ → σ × Option GoError),
      c.Get req.URL s = (s1, some r, some ⟨w, close⟩, none) →
      Handler c h ioCopy rw req s =
        some ((r.Close (ioCopy ⟨rw.Write⟩ r s1)).1,
              [fun s2 =>
                (close (h.ServeHTTP (ResWrapper.toResponseWriter ⟨rw, w⟩) req s2)).1])) ∧
    (∀ (c : Cache (Option World))
      (ioCopy : Writer (Option World) → ReadCloser (Option World) → Option World → Option World)
      (req : Request) (s s1 : Option World) (r : ReadCloser (Option World)) (hd : File)
      (ops : List RWCall),
      c.Get req.URL s = (s1, some r, some (File.toWriteCloser hd), none) →
      ∃ x g, Handler c (HttpHandler.ofCalls ops) ioCopy realResponseWriter req s =
          some (x, [g]) ∧
        ∀ (fs : State) (received : List RWCall) (f : Nat) (ct : List Byte),
          File.target fs hd = some f → memFile.Bytes fs f = some ct →
          ∃ fs', g (some ⟨fs, received⟩) =
              some ⟨fs', received ++ ops.filter (fun o => !o.isWrite)⟩ ∧
            memFile.Bytes fs' f = some (ct ++ RWCall.body ops) ∧
            (∀ e, e ≠ f → memFile.Bytes fs' e = memFile.Bytes fs e) ∧
            fs'.files = fs.files) := by
  refine ⟨fun _ _ => rfl, fun _ _ => rfl, rfl, rfl, ResWrapper.calls_on_store, ?_, ?_⟩
  · intro c h ioCopy req s s1 r close hget
    unfold Handler
    rw [hget]
  · intro c ioCopy req s s1 r hd ops hget
    refine ⟨_, _, by unfold Handler; rw [hget], ?_⟩
    intro fs received f ct ht hc
    obtain ⟨fs', h1, h2, h3, h4⟩ := ResWrapper.calls_on_store ops fs received hd f ct ht hc
    refine ⟨fs', ?_, h2, h3, h4⟩
    simp only [HttpHandler.ofCalls]
    rw [h1]
    cases hd <;> rfl

/-- C17 on the entry "/x" just created and opened, its two handles returned by
the coordinator, for a handler that sets the status, writes "hi", asks for the
header map and writes "!": the closure starts one goroutine, after which the
entry holds "hi!" and the real response writer has received the status and
header calls only. -/
theorem C17_body_only_capture_witness :
    (run NewMemFs [Call.Create "/x" 1 false, Call.Open "/x" 2]).map (fun x => x.1) =
      some ({ files := ⟨[("/x", 0)], []⟩,
                          memFiles := [{ name := "/x", r := [],
                                         memReader := { memFile := 0, n := 0 },
                                         rt := 2, wt := 1 }],
                          memReaders := [{ memFile := 0, n := 0 }] } : State) ∧
    ∃ x g fs',
      Handler (World.missCache (File.memReader 0) (File.memFile 0))
          (HttpHandler.ofCalls
            [RWCall.WriteHeader 200, RWCall.Write [104, 105], RWCall.Header, RWCall.Write [33]])
          (fun _ _ s => s) realResponseWriter { Method := "GET", URL := "/x", Body := [] }
          (some ⟨({ files := ⟨[("/x", 0)], []⟩,
                          memFiles := [{ name := "/x", r := [],
                                         memReader := { memFile := 0, n := 0 },
                                         rt := 2, wt := 1 }],
                          memReaders := [{ memFile := 0, n := 0 }] } : State), []⟩) = some (x, [g]) ∧
      g (some ⟨({ files := ⟨[("/x", 0)], []⟩,
                          memFiles := [{ name := "/x", r := [],
                                         memReader := { memFile := 0, n := 0 },
                                         rt := 2, wt := 1 }],
                          memReaders := [{ memFile := 0, n := 0 }] } : State), []⟩) = some ⟨fs', [RWCall.WriteHeader 200, RWCall.Header]⟩ ∧
      memFile.Bytes fs' 0 = some [104, 105, 33] := by
  refine ⟨by decide, ?_⟩
  obtain ⟨x, g, hh, hg⟩ :=
    (C17_body_only_capture realResponseWriter (File.toWriteCloser (File.memFile 0)).toWriter).2.2.2.2.2.2
      (World.missCache (File.memReader 0) (File.memFile 0)) (fun _ _ s => s)
      { Method := "GET", URL := "/x", Body := [] }
      (some ⟨({ files := ⟨[("/x", 0)], []⟩,
                          memFiles := [{ name := "/x", r := [],
                                         memReader := { memFile := 0, n := 0 },
                                         rt := 2, wt := 1 }],
                          memReaders := [{ memFile := 0, n := 0 }] } : State), []⟩)
      (some ⟨({ files := ⟨[("/x", 0)], []⟩,
                          memFiles := [{ name := "/x", r := [],
                                         memReader := { memFile := 0, n := 0 },
                                         rt := 2, wt := 1 }],
                          memReaders := [{ memFile := 0, n := 0 }] } : State), []⟩)
      (File.toReadCloser (File.memReader 0)) (File.memFile 0)
      [RWCall.WriteHeader 200, RWCall.Write [104, 105], RWCall.Header, RWCall.Write [33]] rfl
  obtain ⟨fs', h1, h2, _⟩ :=
    hg ({ files := ⟨[("/x", 0)], []⟩,
                          memFiles := [{ name := "/x", r := [],
                                         memReader := { memFile := 0, n := 0 },
                                         rt := 2, wt := 1 }],
                          memReaders := [{ memFile := 0, n := 0 }] } : State)
      [] 0 [] (by decide) (by decide)
  exact ⟨x, g, fs', hh, h1, h2⟩

end fscache
